import Mathlib

/-!
Verification of the DGL recommendation-tutorial notebooks
(`Recommendation-fism.ipynb`, `Recommendation.ipynb`,
`process_movielens.ipynb`, and the retail-prediction analysis notebook).

The notebooks are sequential Python scripts over NumPy/SciPy/PyTorch/DGL.
We shallowly embed the original functions over exact rationals:
1-D tensors become `List ℚ`, 2-D tensors become `List (List ℚ)` or
index functions, sparse matrices become entry lists or `ℕ → ℕ → ℕ`
indicator functions, and randomness (`np.random.choice`,
`np.random.permutation`) becomes an explicit oracle argument.
Transcendental kernels such as `F.logsigmoid` are abstracted as a
function parameter, since every claim below is about the surrounding
arithmetic and control structure, not the kernel itself.
-/

namespace DGLRec

/-! ## Generic list-indexing helpers -/

/-- Value of a `zipWith` at an index, in terms of the two input lists. -/
theorem getD_zipWith {α β γ : Type} (f : α → β → γ) (d : γ) (da : α) (db : β) :
    ∀ (as : List α) (bs : List β) (i : ℕ), i < as.length → i < bs.length →
      (List.zipWith f as bs).getD i d = f (as.getD i da) (bs.getD i db) := by
  intro as
  induction as with
  | nil => intro bs i h _; simp at h
  | cons a as ih =>
    intro bs i h1 h2
    cases bs with
    | nil => simp at h2
    | cons b bs =>
      cases i with
      | zero => simp
      | succ i =>
        simp only [List.zipWith_cons_cons, List.getD_cons_succ]
        exact ih bs i (by simpa using h1) (by simpa using h2)

/-- Value of a mapped list at an index, in terms of the input list. -/
theorem getD_map {α β : Type} (f : α → β) (d : β) (da : α) :
    ∀ (l : List α) (i : ℕ), i < l.length →
      (l.map f).getD i d = f (l.getD i da) := by
  intro l
  induction l with
  | nil => intro i h; simp at h
  | cons a l ih =>
    intro i h
    cases i with
    | zero => simp
    | succ i => simpa using ih i (by simpa using h)

/-- A `countP` written as the cardinality of a set of indices. -/
theorem countP_eq_card_filter_range {α : Type} (p : α → Bool) (d : α) :
    ∀ l : List α, l.countP p =
      ((Finset.range l.length).filter (fun i => p (l.getD i d) = true)).card := by
  intro l
  induction l with
  | nil => simp
  | cons a l ih =>
    rw [List.countP_cons, ih, Finset.card_filter, Finset.card_filter,
      List.length_cons, Finset.sum_range_succ']
    simp [add_comm]

/-- Splitting a list into consecutive chunks of size `n`
(the semantics of `reshape((-1, n))` on a flat tensor). -/
def chunks {α : Type} (n : ℕ) (l : List α) : List (List α) :=
  if h : n = 0 then [] else
  match l with
  | [] => []
  | x :: xs => (x :: xs).take n :: chunks n ((x :: xs).drop n)
termination_by l.length
decreasing_by
  simp only [List.length_drop, List.length_cons]
  omega

theorem chunks_nil {α : Type} (n : ℕ) : chunks n ([] : List α) = [] := by
  rw [chunks]
  split <;> rfl

theorem chunks_cons {α : Type} (n : ℕ) (hn : n ≠ 0) (l : List α) (hl : l ≠ []) :
    chunks n l = l.take n :: chunks n (l.drop n) := by
  cases l with
  | nil => exact absurd rfl hl
  | cons x xs => rw [chunks]; simp [hn]

/-- The `b`-th chunk of a flat list is the length-`n` window at offset `b * n`. -/
theorem chunks_getD {α : Type} (n : ℕ) (hn : n ≠ 0) :
    ∀ (b : ℕ) (l : List α), b * n < l.length →
      (chunks n l).getD b [] = (l.drop (b * n)).take n := by
  intro b
  induction b with
  | zero =>
    intro l hl
    have hne : l ≠ [] := by
      intro h; rw [h] at hl; simp at hl
    rw [chunks_cons n hn l hne]
    simp
  | succ b ih =>
    intro l hl
    have hne : l ≠ [] := by
      intro h; rw [h] at hl; simp at hl
    rw [chunks_cons n hn l hne]
    rw [List.getD_cons_succ]
    have hlt : b * n < (l.drop n).length := by
      rw [List.length_drop]
      have : (b + 1) * n = b * n + n := by ring
      omega
    rw [ih (l.drop n) hlt, List.drop_drop]
    have : n + b * n = (b + 1) * n := by ring
    rw [this]

/-- Number of chunks of a list whose length is an exact multiple. -/
theorem chunks_length {α : Type} (n : ℕ) (hn : n ≠ 0) :
    ∀ (b : ℕ) (l : List α), l.length = b * n → (chunks n l).length = b := by
  intro b
  induction b with
  | zero =>
    intro l hl
    have : l = [] := List.length_eq_zero.mp (by simpa using hl)
    rw [this, chunks_nil]
    rfl
  | succ b ih =>
    intro l hl
    have hne : l ≠ [] := by
      intro h
      rw [h] at hl
      simp at hl
      omega
    rw [chunks_cons n hn l hne]
    have : (l.drop n).length = b * n := by
      rw [List.length_drop, hl]
      have : (b + 1) * n = b * n + n := by ring
      omega
    simp [ih (l.drop n) this]

/-- An element inside the `b`-th chunk, fetched from the flat list. -/
theorem chunks_getD_getD {α : Type} (n : ℕ) (hn : n ≠ 0) (l : List α)
    (d : α) (b j : ℕ) (hj : j < n) (hlen : b * n + j < l.length) :
    ((chunks n l).getD b []).getD j d = l.getD (b * n + j) d := by
  have hb : b * n < l.length := by omega
  rw [chunks_getD n hn b l hb]
  have hj2 : j < (l.drop (b * n)).length := by
    rw [List.length_drop]; omega
  rw [List.getD_eq_getElem?_getD, List.getElem?_take, if_pos hj,
    List.getElem?_drop, ← List.getD_eq_getElem?_getD]

/-! ## C2: the pairwise ranking losses

`Recommendation-fism.ipynb` defines
`rank_loss2(pos, neg) = torch.sum(F.logsigmoid(pos_score - neg_score)) * (-1.0)`
where `pos_score` broadcasts as a `(batch, 1)` column against the
`(batch, n_negs)` matrix `neg_score`.  `Recommendation.ipynb` defines
`rank_loss2(pos, neg, nss, mask)` which reshapes `neg_score` and `mask`
into `(batch, nss)` rows and returns per-row masked sums times `-1`.
`F.logsigmoid` is abstracted as the parameter `logsig`. -/

/-- Constructor arguments of one `SAGEConv` layer: input width, output
width, and whether an activation was passed. -/
structure SAGELayerSpec where
  in_feats : ℕ
  out_feats : ℕ
  has_activation : Bool
deriving DecidableEq

/-- The `nn.ModuleList` built by `GraphSAGEModel.__init__`. -/
def graphSAGELayers (in_feats n_hidden out_dim n_layers : ℕ) : List SAGELayerSpec :=
  if n_layers = 1 then [⟨in_feats, out_dim, false⟩]
  else if 1 < n_layers then
    ⟨in_feats, n_hidden, true⟩ ::
      (List.replicate (n_layers - 2) ⟨n_hidden, n_hidden, true⟩
        ++ [⟨n_hidden, out_dim, false⟩])
  else []

/-- `GraphSAGEModel.forward`: fold the layers over the features in order,
then apply the final normalization/projection.  `sageConv` abstracts one
`SAGEConv` application (which also reads `g.edata` for the similarity
variant) and `norm` abstracts `self.norm` / `self.proj`. -/
def graphSAGEForward {G F : Type} (sageConv : SAGELayerSpec → G → F → F) (norm : F → F)
    (layers : List SAGELayerSpec) (g : G) (features : F) : F :=
  norm (layers.foldl (fun h layer => sageConv layer g h) features)

/-- C5: with `n_layers >= 1` the model holds exactly `n_layers` layers
(a single `in_feats`-to-`out_dim` layer when `n_layers = 1`, otherwise
an input layer, `n_layers - 2` hidden layers and an output layer);
`forward` applies the layers in order before the final normalization;
and with `n_layers = 0` the layer list is empty, so `forward` returns
the normalization of the input features for every graph. -/
theorem graphSAGEModel_spec {G F : Type} (sageConv : SAGELayerSpec → G → F → F)
    (norm : F → F) (in_feats n_hidden out_dim n_layers : ℕ)
    (hpos : 1 ≤ n_layers) :
    (graphSAGELayers in_feats n_hidden out_dim n_layers).length = n_layers
    ∧ (n_layers = 1 →
        graphSAGELayers in_feats n_hidden out_dim n_layers
          = [⟨in_feats, out_dim, false⟩])
    ∧ (2 ≤ n_layers →
        graphSAGELayers in_feats n_hidden out_dim n_layers
          = ⟨in_feats, n_hidden, true⟩ ::
              (List.replicate (n_layers - 2) ⟨n_hidden, n_hidden, true⟩
                ++ [⟨n_hidden, out_dim, false⟩]))
    ∧ (∀ (l : SAGELayerSpec) (rest : List SAGELayerSpec) (g : G) (feats : F),
        graphSAGEForward sageConv norm (l :: rest) g feats
          = graphSAGEForward sageConv norm rest g (sageConv l g feats))
    ∧ (graphSAGELayers in_feats n_hidden out_dim 0 = [])
    ∧ (∀ (g g2 : G) (feats : F),
        graphSAGEForward sageConv norm (graphSAGELayers in_feats n_hidden out_dim 0) g feats
          = norm feats
        ∧ graphSAGEForward sageConv norm (graphSAGELayers in_feats n_hidden out_dim 0) g feats
          = graphSAGEForward sageConv norm (graphSAGELayers in_feats n_hidden out_dim 0)
              g2 feats) := by
  refine ⟨?_, ?_, ?_, ?_, ?_, ?_⟩
  · unfold graphSAGELayers
    by_cases h1 : n_layers = 1
    · simp [h1]
    · have h2 : 1 < n_layers := by omega
      simp only [h1, if_false, h2, if_true]
      simp only [List.length_cons, List.length_append, List.length_replicate,
        List.length_nil]
      omega
  · intro h1
    unfold graphSAGELayers
    simp [h1]
  · intro h2
    unfold graphSAGELayers
    have h1 : n_layers ≠ 1 := by omega
    have h2b : 1 < n_layers := by omega
    simp [h1, h2b]
  · intro l rest g feats
    rfl
  · unfold graphSAGELayers
    simp
  · intro g g2 feats
    unfold graphSAGELayers
    exact ⟨rfl, rfl⟩

/-- Witness for C5 at a concrete input. -/
theorem graphSAGEModel_spec_witness :
    (graphSAGELayers 8 16 4 3).length = 3
    ∧ (2 ≤ 3 →
        graphSAGELayers 8 16 4 3
          = ⟨8, 16, true⟩ ::
              (List.replicate 1 ⟨16, 16, true⟩ ++ [⟨16, 4, false⟩])) := by
  have h := @graphSAGEModel_spec ℕ ℕ (fun _ _ h => h) (fun h => h) 8 16 4 3
    (by decide)
  exact ⟨h.1, fun _ => h.2.2.1 (by decide)⟩

/-! ## C9: the training loop is strictly sequential

Each notebook's loop is `for epoch in range(n_epochs): (for each batch:
loss, zero_grad, backward, step); evaluate`.  We model the loop as the
trace of events it executes, one `update` per optimizer step and one
`eval` per epoch-end hit-rate evaluation. -/

/-- One event of the training loop. -/
inductive TrainEvent where
  | update (epoch batch : ℕ)
  | eval (epoch : ℕ)
deriving DecidableEq

/-- Events of one epoch body: the mini-batch optimizer steps produced by
the edge sampler, then the hit-rate evaluation of that epoch. -/
def epochBlock (nBatches : ℕ → ℕ) (e : ℕ) : List TrainEvent :=
  (List.range (nBatches e)).map (fun b => TrainEvent.update e b) ++ [TrainEvent.eval e]

/-- The event trace of `for epoch in range(n_epochs): ...`. -/
def trainingTrace (nBatches : ℕ → ℕ) : ℕ → List TrainEvent
  | 0 => []
  | e + 1 => trainingTrace nBatches e ++ epochBlock nBatches e

theorem mem_trainingTrace_eval (nBatches : ℕ → ℕ) :
    ∀ n e, TrainEvent.eval e ∈ trainingTrace nBatches n ↔ e < n := by
  intro n
  induction n with
  | zero => intro e; simp [trainingTrace]
  | succ n ih =>
    intro e
    simp only [trainingTrace, List.mem_append, ih, epochBlock, List.mem_map,
      List.mem_singleton, List.mem_range, TrainEvent.eval.injEq]
    constructor
    · rintro (h | ⟨b, _, h⟩ | h)
      · omega
      · exact absurd h (by simp)
      · omega
    · intro h
      by_cases he : e < n
      · exact Or.inl he
      · exact Or.inr (Or.inr (by omega))

theorem count_trainingTrace_eval (nBatches : ℕ → ℕ) :
    ∀ n e, (trainingTrace nBatches n).count (TrainEvent.eval e)
      = if e < n then 1 else 0 := by
  intro n
  induction n with
  | zero => intro e; simp [trainingTrace]
  | succ n ih =>
    intro e
    rw [trainingTrace, List.count_append, ih]
    have hblock : (epochBlock nBatches n).count (TrainEvent.eval e)
        = if e = n then 1 else 0 := by
      unfold epochBlock
      rw [List.count_append]
      have hmap : ((List.range (nBatches n)).map
          (fun b => TrainEvent.update n b)).count (TrainEvent.eval e) = 0 := by
        rw [List.count_eq_zero]
        simp
      rw [hmap, zero_add]
      by_cases he : e = n
      · subst he
        simp
      · rw [if_neg he, List.count_eq_zero]
        simp only [List.mem_singleton, TrainEvent.eval.injEq]
        exact he
    rw [hblock]
    by_cases h1 : e < n
    · have h2 : e ≠ n := by omega
      simp [h1, h2, if_pos (by omega : e < n + 1)]
    · by_cases h2 : e = n
      · simp [h1, h2]
      · have : ¬ e < n + 1 := by omega
        simp [h1, h2, this]

theorem update_before_eval (nBatches : ℕ → ℕ) :
    ∀ n e b p q, (trainingTrace nBatches n).get? p = some (TrainEvent.update e b) →
      (trainingTrace nBatches n).get? q = some (TrainEvent.eval e) → p < q := by
  intro n
  induction n with
  | zero =>
    intro e b p q hp _
    simp [trainingTrace] at hp
  | succ n ih =>
    intro e b p q hp hq
    rw [trainingTrace] at hp hq
    set T := trainingTrace nBatches n with hT
    by_cases hpL : p < T.length
    · rw [List.get?_append hpL] at hp
      by_cases hqL : q < T.length
      · rw [List.get?_append hqL] at hq
        exact ih e b p q hp hq
      · omega
    · have hpR : T.length ≤ p := by omega
      rw [List.get?_append_right hpR] at hp
      unfold epochBlock at hp
      set M := (List.range (nBatches n)).map (fun b => TrainEvent.update n b) with hM
      have hMlen : M.length = nBatches n := by simp [hM]
      by_cases hpM : p - T.length < M.length
      · rw [List.get?_append hpM] at hp
        have hpval : M.get? (p - T.length) = some (TrainEvent.update n (p - T.length)) := by
          rw [hM, List.get?_map, List.get?_range (by omega : p - T.length < nBatches n)]
          rfl
        rw [hpval] at hp
        have hen : e = n := by
          have h2 := Option.some.inj hp
          injection h2 with h3 h4
          omega
        subst hen
        by_cases hqL : q < T.length
        · rw [List.get?_append hqL] at hq
          have : TrainEvent.eval e ∈ T := List.get?_mem hq
          rw [hT, mem_trainingTrace_eval] at this
          omega
        · have hqR : T.length ≤ q := by omega
          rw [List.get?_append_right hqR] at hq
          unfold epochBlock at hq
          rw [← hM] at hq
          by_cases hqM : q - T.length < M.length
          · rw [List.get?_append hqM] at hq
            have hqval : M.get? (q - T.length)
                = some (TrainEvent.update e (q - T.length)) := by
              rw [hM, List.get?_map, List.get?_range (by omega : q - T.length < nBatches e)]
              rfl
            rw [hqval] at hq
            exact absurd (Option.some.inj hq) (by simp)
          · have hq2 : M.length ≤ q - T.length := by omega
            rw [List.get?_append_right hq2] at hq
            have : q - T.length - M.length < 1 := by
              by_contra hcon
              rw [List.get?_eq_none.mpr (by simp; omega)] at hq
              exact Option.noConfusion hq
            omega
      · have hp2 : M.length ≤ p - T.length := by omega
        rw [List.get?_append_right hp2] at hp
        have : p - T.length - M.length < 1 := by
          by_contra hcon
          rw [List.get?_eq_none.mpr (by simp; omega)] at hp
          exact Option.noConfusion hp
        have hpval : ([TrainEvent.eval n] : List TrainEvent).get?
            (p - T.length - M.length) = some (TrainEvent.eval n) := by
          have h0 : p - T.length - M.length = 0 := by omega
          rw [h0]
          rfl
        rw [hpval] at hp
        exact absurd (Option.some.inj hp) (by simp)

/-- C9: the training loop is strictly sequential.  In the trace of the
loop the hit-rate evaluation of epoch `e` occurs exactly once, and every
optimizer step of epoch `e` occurs strictly before it, so evaluation is
never interleaved with the batch updates of its epoch. -/
theorem training_loop_sequential (nBatches : ℕ → ℕ) (n_epochs e b p q : ℕ)
    (he : e < n_epochs) :
    (trainingTrace nBatches n_epochs).count (TrainEvent.eval e) = 1
    ∧ ((trainingTrace nBatches n_epochs).get? p = some (TrainEvent.update e b) →
       (trainingTrace nBatches n_epochs).get? q = some (TrainEvent.eval e) → p < q) := by
  constructor
  · rw [count_trainingTrace_eval, if_pos he]
  · exact update_before_eval nBatches n_epochs e b p q

/-- Witness for C9 at a concrete input. -/
theorem training_loop_sequential_witness :
    (trainingTrace (fun _ => 2) 1).count (TrainEvent.eval 0) = 1
    ∧ ((trainingTrace (fun _ => 2) 1).get? 0 = some (TrainEvent.update 0 0) →
       (trainingTrace (fun _ => 2) 1).get? 2 = some (TrainEvent.eval 0) → 0 < 2) :=
  training_loop_sequential (fun _ => 2) 1 0 0 0 2 (by decide)

/-! ## C4: knnEvaluate / RecEvaluate from Recommendation.ipynb

`knnEvaluate(data, query_eval, item_eval, score_fn)` computes
`scores = score_fn(data) - np.diag(np.ones(n))`, reads the truth scores
`scores[query_eval, item_eval]`, and returns
`np.mean(np.sum(scores[query_eval] >= truth_scores, 1) < 3)`.
`score_fn` (`dot_score` / `cosine_similarity`) and the embedding data
are abstracted as parameters. -/

/-- The score matrix after `score_fn(data) - np.diag(np.ones(n))`. -/
def knnAdjScores {D : Type} (n : ℕ) (data : D) (score_fn : D → Fin n → Fin n → ℚ) :
    Fin n → Fin n → ℚ :=
  fun q j => score_fn data q j - (if q = j then 1 else 0)

/-- `knnEvaluate` itself: hit iff fewer than 3 items score at least the
truth item against the query, averaged over the query/truth pairs. -/
def knnEvaluate {D : Type} (n : ℕ) (data : D) (query_eval item_eval : List (Fin n))
    (score_fn : D → Fin n → Fin n → ℚ) : ℚ :=
  ((List.zipWith (fun q t => decide
      ((Finset.univ.filter (fun j =>
          knnAdjScores n data score_fn q t ≤ knnAdjScores n data score_fn q j)).card < 3))
    query_eval item_eval).countP id : ℕ) /
  ((List.zipWith (fun q t => decide
      ((Finset.univ.filter (fun j =>
          knnAdjScores n data score_fn q t ≤ knnAdjScores n data score_fn q j)).card < 3))
    query_eval item_eval).length : ℕ)

/-- A cast `countP` written as a sum of rational indicators. -/
theorem countP_cast_eq_sum_indicator {α : Type} (p : α → Bool) :
    ∀ l : List α, ((l.countP p : ℕ) : ℚ)
      = (l.map (fun a => if p a then (1 : ℚ) else 0)).sum := by
  intro l
  induction l with
  | nil => simp
  | cons a l ih =>
    rw [List.countP_cons, List.map_cons, List.sum_cons]
    by_cases h : p a
    · simp [h, ih, add_comm]
    · simp [h, ih]

/-- A `zipWith` as a map over the zipped pair list. -/
theorem zipWith_eq_map_zip {α β γ : Type} (f : α → β → γ) :
    ∀ (as : List α) (bs : List β),
      List.zipWith f as bs = (as.zip bs).map (fun p => f p.1 p.2) := by
  intro as
  induction as with
  | nil => intro bs; simp
  | cons a as ih =>
    intro bs
    cases bs with
    | nil => simp
    | cons b bs => simp [List.zip_cons_cons, ih]

/-- C4: `knnEvaluate` subtracts the identity matrix from the pairwise
score matrix (so each item's self-score drops by one and off-diagonal
scores are untouched), then returns the mean over query/truth pairs of
the indicator that fewer than 3 items score at least the truth item
against the query; the truth item itself always belongs to the counted
set, so the count is never zero. -/
theorem knnEvaluate_spec {D : Type} (n : ℕ) (data : D)
    (score_fn : D → Fin n → Fin n → ℚ) (query_eval item_eval : List (Fin n)) :
    (∀ q : Fin n, knnAdjScores n data score_fn q q = score_fn data q q - 1)
    ∧ (∀ q j : Fin n, q ≠ j → knnAdjScores n data score_fn q j = score_fn data q j)
    ∧ knnEvaluate n data query_eval item_eval score_fn
        = ((query_eval.zip item_eval).map (fun p =>
            if (Finset.univ.filter (fun j =>
                knnAdjScores n data score_fn p.1 p.2
                  ≤ knnAdjScores n data score_fn p.1 j)).card < 3
            then (1 : ℚ) else 0)).sum / ((query_eval.zip item_eval).length : ℕ)
    ∧ (∀ q t : Fin n,
        t ∈ Finset.univ.filter (fun j =>
          knnAdjScores n data score_fn q t ≤ knnAdjScores n data score_fn q j)
        ∧ 1 ≤ (Finset.univ.filter (fun j =>
            knnAdjScores n data score_fn q t ≤ knnAdjScores n data score_fn q j)).card) := by
  refine ⟨?_, ?_, ?_, ?_⟩
  · intro q
    simp [knnAdjScores]
  · intro q j hqj
    simp [knnAdjScores, hqj]
  · unfold knnEvaluate
    rw [zipWith_eq_map_zip, countP_cast_eq_sum_indicator, List.map_map, List.length_map]
    congr 1
    apply congrArg
    apply List.map_congr_left
    intro p _
    by_cases h : (Finset.univ.filter (fun j =>
        knnAdjScores n data score_fn p.1 p.2 ≤ knnAdjScores n data score_fn p.1 j)).card < 3
    · simp [Function.comp, h]
    · simp [Function.comp, h]
  · intro q t
    have hmem : t ∈ Finset.univ.filter (fun j =>
        knnAdjScores n data score_fn q t ≤ knnAdjScores n data score_fn q j) := by
      simp
    exact ⟨hmem, Finset.card_pos.mpr ⟨t, hmem⟩⟩

/-- Witness for C4 at a concrete input. -/
theorem knnEvaluate_spec_witness :
    knnAdjScores 2 () (fun _ q j => (q : ℚ) + j) 0 1 = 1
      ∧ 1 ≤ (Finset.univ.filter (fun j =>
          knnAdjScores 2 () (fun _ q j => (q : ℚ) + j) 0 1
            ≤ knnAdjScores 2 () (fun _ q j => (q : ℚ) + j) 0 j)).card := by
  have h := knnEvaluate_spec 2 () (fun _ q j => (q : ℚ) + j) [0] [1]
  refine ⟨?_, (h.2.2.2 0 1).2⟩
  rw [h.2.1 0 1 (by decide)]
  norm_num

/-! ## C3: RecEval from Recommendation-fism.ipynb

`RecEval(model, user_item_spm, k, users_eval, items_eval, neg_eval)`
gathers each evaluated user's negative items and interacted-item row,
calls `model.est_rating`, reshapes the negative ratings to
`(-1, neg_sample_size)` and returns
`np.mean((torch.sum(neg_r >= r, 1) <= k))`.  The model is abstracted as
the function `est` it is queried through. -/

/-- Reshape the flat negative ratings and compare them against the
positive ratings: `np.mean((torch.sum(neg_r >= r, 1) <= k))`. -/
def recHitsMean (k : ℕ) (rn : List ℚ × List ℚ) : ℚ :=
  ((List.zipWith (fun rv row => decide (row.countP (fun x => decide (rv ≤ x)) ≤ k))
      rn.1 (chunks (rn.2.length / rn.1.length) rn.2)).countP id : ℕ) /
  ((List.zipWith (fun rv row => decide (row.countP (fun x => decide (rv ≤ x)) ≤ k))
      rn.1 (chunks (rn.2.length / rn.1.length) rn.2)).length : ℕ)

/-- `RecEval`: build the per-user negative sets and interacted-item rows,
query the model's `est_rating`, and average the hit indicators. -/
def RecEval (est : List ℕ → List ℕ → List (List ℕ) → List ℕ → List ℕ → List ℚ × List ℚ)
    (spmRow : ℕ → List ℕ) (k : ℕ) (users_eval items_eval : List ℕ)
    (neg_eval : ℕ → List ℕ) : ℚ :=
  recHitsMean k (est items_eval users_eval (users_eval.map neg_eval)
    ((users_eval.map spmRow).join) ((users_eval.map spmRow).map List.length))

/-- C3: for every model (abstracted as its `est_rating` response `(r,
neg_flat)`), `RecEval` returns the mean over the evaluated users of the
indicator that the number of that user's sampled negative items whose
estimated rating is at least the rating of the true item is at most
`k`. -/
theorem RecEval_spec
    (est : List ℕ → List ℕ → List (List ℕ) → List ℕ → List ℕ → List ℚ × List ℚ)
    (spmRow : ℕ → List ℕ) (k : ℕ) (users_eval items_eval : List ℕ)
    (neg_eval : ℕ → List ℕ) (r neg_flat : List ℚ) (nss : ℕ)
    (hest : est items_eval users_eval (users_eval.map neg_eval)
        ((users_eval.map spmRow).join) ((users_eval.map spmRow).map List.length)
      = (r, neg_flat))
    (hnss : nss ≠ 0) (hrpos : r.length ≠ 0)
    (hr : r.length = users_eval.length)
    (hneg : neg_flat.length = r.length * nss) :
    RecEval est spmRow k users_eval items_eval neg_eval
      = (∑ u ∈ Finset.range users_eval.length,
          if ((Finset.range nss).filter (fun j =>
                r.getD u 0 ≤ neg_flat.getD (u * nss + j) 0)).card ≤ k
          then (1 : ℚ) else 0) / (users_eval.length : ℕ) := by
  unfold RecEval
  rw [hest]
  unfold recHitsMean
  have hdiv : neg_flat.length / r.length = nss := by
    rw [hneg, Nat.mul_div_cancel_left nss (by omega)]
  simp only [hdiv]
  have hclen : (chunks nss neg_flat).length = r.length :=
    chunks_length nss hnss r.length neg_flat hneg
  have hhitlen : (List.zipWith
      (fun rv row => decide (row.countP (fun x => decide (rv ≤ x)) ≤ k))
      r (chunks nss neg_flat)).length = r.length := by
    simp [List.length_zipWith, hclen]
  rw [countP_eq_card_filter_range id false, hhitlen, Finset.card_filter]
  rw [hr]
  congr 1
  · rw [Nat.cast_sum]
    apply Finset.sum_congr rfl
    intro u hu
    have hu2 : u < r.length := by
      rw [hr]; exact Finset.mem_range.mp hu
    have hmul : u * nss + nss ≤ r.length * nss := by
      have h2 : (u + 1) * nss ≤ r.length * nss := Nat.mul_le_mul_right nss hu2
      rw [add_one_mul] at h2
      exact h2
    have hrow : (chunks nss neg_flat).getD u [] = (neg_flat.drop (u * nss)).take nss := by
      exact chunks_getD nss hnss u neg_flat (by omega)
    have hrowlen : ((chunks nss neg_flat).getD u []).length = nss := by
      rw [hrow]
      simp only [List.length_take, List.length_drop]
      omega
    have hget : (List.zipWith
        (fun rv row => decide (row.countP (fun x => decide (rv ≤ x)) ≤ k))
        r (chunks nss neg_flat)).getD u false
        = decide (((chunks nss neg_flat).getD u []).countP
            (fun x => decide (r.getD u 0 ≤ x)) ≤ k) := by
      exact getD_zipWith _ false 0 [] r (chunks nss neg_flat) u hu2 (by omega)
    rw [hget]
    have hcount : ((chunks nss neg_flat).getD u []).countP
        (fun x => decide (r.getD u 0 ≤ x))
        = ((Finset.range nss).filter (fun j =>
            r.getD u 0 ≤ neg_flat.getD (u * nss + j) 0)).card := by
      rw [countP_eq_card_filter_range _ 0, hrowlen]
      apply congrArg
      apply Finset.filter_congr
      intro j hj
      have hjn : j < nss := Finset.mem_range.mp hj
      rw [chunks_getD_getD nss hnss neg_flat 0 u j hjn (by omega)]
      simp
    rw [hcount]
    by_cases hc : ((Finset.range nss).filter (fun j =>
        r.getD u 0 ≤ neg_flat.getD (u * nss + j) 0)).card ≤ k
    · simp [hc]
    · simp [hc]

/-- Witness for C3 at a concrete input. -/
theorem RecEval_spec_witness :
    RecEval (fun _ _ _ _ _ => ([5, 1], [4, 6, 0, 2])) (fun _ => []) 1 [7, 8] [3, 4]
        (fun _ => [])
      = (∑ u ∈ Finset.range 2,
          if ((Finset.range 2).filter (fun j =>
                ([5, 1] : List ℚ).getD u 0
                  ≤ ([4, 6, 0, 2] : List ℚ).getD (u * 2 + j) 0)).card ≤ 1
          then (1 : ℚ) else 0) / (2 : ℕ) :=
  RecEval_spec (fun _ _ _ _ _ => ([5, 1], [4, 6, 0, 2])) (fun _ => []) 1 [7, 8] [3, 4]
    (fun _ => []) [5, 1] [4, 6, 0, 2] 2 rfl (by decide) (by decide) (by decide) (by decide)

/-! ## C6: the item-item similarity graph and its `similarity` edge data

The notebook builds `item_spm` by exactly one of three construction
cells (`create_SLIM_graph`, `create_cooccur_graph`, `create_cosine_graph`)
and then loads it with
`g = dgl.DGLGraph(item_spm, readonly=True);
 g.edata['similarity'] = torch.tensor(item_spm.data, ...)`. -/

/-- A SciPy sparse matrix in coordinate form: parallel arrays of row
indices, column indices and stored values. -/
structure SparseMatrix where
  rows : List ℕ
  cols : List ℕ
  data : List ℚ

/-- Well-formedness of the parallel arrays of a sparse matrix. -/
def SparseMatrix.wf (s : SparseMatrix) : Prop :=
  s.rows.length = s.data.length ∧ s.cols.length = s.data.length

/-- Which of the three construction cells produced `item_spm`. -/
inductive GraphMethod where
  | slim
  | cooccur
  | cosine

/-- Modelled from the spec: the module `graph_construct.py` (holding
`create_SLIM_graph`, `create_cooccur_graph` and `create_cosine_graph`)
is not part of the sources; per the spec the item graph is built from
the training user-item matrix by an external SLIM solver or by
co-occurrence/cosine-top-k heuristics, so the three builders are kept
abstract as the fields of this structure. -/
structure GraphConstruct where
  create_SLIM_graph : SparseMatrix → SparseMatrix
  create_cooccur_graph : SparseMatrix → SparseMatrix
  create_cosine_graph : SparseMatrix → SparseMatrix

/-- Build `item_spm` by the single method the notebook ran. -/
def buildItemGraph (gc : GraphConstruct) (m : GraphMethod)
    (user_item_spm : SparseMatrix) : SparseMatrix :=
  match m with
  | GraphMethod.slim => gc.create_SLIM_graph user_item_spm
  | GraphMethod.cooccur => gc.create_cooccur_graph user_item_spm
  | GraphMethod.cosine => gc.create_cosine_graph user_item_spm

/-- A loaded DGL graph: the edge list in the sparse matrix's storage
order and the `similarity` edge attribute. -/
structure ItemGraph where
  edges : List (ℕ × ℕ)
  similarity : List ℚ

/-- The load cell: `g = dgl.DGLGraph(item_spm, readonly=True)` creates
one edge per stored entry of `item_spm` in storage order, and
`g.edata['similarity'] = torch.tensor(item_spm.data)` attaches the value
array positionally. -/
def loadItemGraph (item_spm : SparseMatrix) : ItemGraph :=
  { edges := item_spm.rows.zip item_spm.cols
    similarity := item_spm.data }

/-- C6: the item graph fed to the GNN comes from exactly one of the
three construction methods, and after it is loaded into the DGL graph,
the edge attribute `similarity` agrees with the stored data values of
the sparse matrix edge for edge: there are as many edges as stored
values and the attribute at each edge index equals the value there. -/
theorem item_graph_similarity (gc : GraphConstruct) (m : GraphMethod)
    (user_item_spm : SparseMatrix)
    (hwf : (buildItemGraph gc m user_item_spm).wf) :
    (buildItemGraph gc m user_item_spm = gc.create_SLIM_graph user_item_spm
      ∨ buildItemGraph gc m user_item_spm = gc.create_cooccur_graph user_item_spm
      ∨ buildItemGraph gc m user_item_spm = gc.create_cosine_graph user_item_spm)
    ∧ (loadItemGraph (buildItemGraph gc m user_item_spm)).similarity
        = (buildItemGraph gc m user_item_spm).data
    ∧ (loadItemGraph (buildItemGraph gc m user_item_spm)).edges.length
        = (buildItemGraph gc m user_item_spm).data.length
    ∧ ∀ e < (loadItemGraph (buildItemGraph gc m user_item_spm)).edges.length,
        (loadItemGraph (buildItemGraph gc m user_item_spm)).similarity.getD e 0
          = (buildItemGraph gc m user_item_spm).data.getD e 0 := by
  refine ⟨?_, rfl, ?_, ?_⟩
  · cases m
    · exact Or.inl rfl
    · exact Or.inr (Or.inl rfl)
    · exact Or.inr (Or.inr rfl)
  · simp only [loadItemGraph, List.length_zip, hwf.1, hwf.2, min_self]
  · intro e _
    rfl

/-- Witness for C6 at a concrete input. -/
theorem item_graph_similarity_witness :
    (loadItemGraph (buildItemGraph
        ⟨fun s => s, fun s => s, fun s => s⟩ GraphMethod.slim
        ⟨[0, 1], [1, 0], [3, 7]⟩)).similarity
      = (buildItemGraph ⟨fun s => s, fun s => s, fun s => s⟩ GraphMethod.slim
          ⟨[0, 1], [1, 0], [3, 7]⟩).data
    ∧ (loadItemGraph (buildItemGraph
        ⟨fun s => s, fun s => s, fun s => s⟩ GraphMethod.slim
        ⟨[0, 1], [1, 0], [3, 7]⟩)).edges.length
      = (buildItemGraph ⟨fun s => s, fun s => s, fun s => s⟩ GraphMethod.slim
          ⟨[0, 1], [1, 0], [3, 7]⟩).data.length := by
  have h := item_graph_similarity ⟨fun s => s, fun s => s, fun s => s⟩ GraphMethod.slim
    ⟨[0, 1], [1, 0], [3, 7]⟩ ⟨by decide, by decide⟩
  exact ⟨h.2.1, h.2.2.1⟩

/-! ## C1: FISMrating.forward

`FISMrating.forward(I, U, I_neg, I_U, N_U, test)` receives the batch of
target items `I`, users `U`, the flat concatenation `I_U` of every
user's interacted items together with the per-user counts `N_U`, builds
`U_idx = arange(batch).repeat_interleave(N_U)` and accumulates
`p_sum = zeros.scatter_add(0, U_idx, P(I_U))`.  With `test=True` it
scores `r = b_u[U] + b_i[I] + (p_sum * Q(I)).sum(1) / N_U**alpha`; with
`test=False` it first subtracts `P(I)` from `p_sum` and divides by
`(N_U - 1).clamp(min=1)**alpha`.  Negative items, when given, are scored
with the same context vector and normalizer.  Embeddings live in `Fin d
→ ℚ`; the GNN outputs `P`, `Q` are abstracted as item-indexed families. -/

/-- `torch.arange(batch).repeat_interleave(N_U)`: index `b` repeated
`N_U[b]` times, in order. -/
def uIdx : List ℕ → List ℕ
  | [] => []
  | n :: rest => List.replicate n 0 ++ (uIdx rest).map (· + 1)

/-- Row `b` of `zeros.scatter_add(0, idx, vals)`: the sum of all value
rows whose index entry equals `b`. -/
def scatterAdd {d : ℕ} (idx : List ℕ) (vals : List (Fin d → ℚ)) (b : ℕ) : Fin d → ℚ :=
  (List.zipWith (fun i v => if i = b then v else 0) idx vals).sum

theorem sum_zipWith_eq_zero {α β : Type} {M : Type} [AddCommMonoid M]
    (f : α → β → M) (hf : ∀ a b, f a b = 0) :
    ∀ (l : List α) (l2 : List β), (List.zipWith f l l2).sum = 0 := by
  intro l
  induction l with
  | nil => intro l2; simp
  | cons a l ih =>
    intro l2
    cases l2 with
    | nil => simp
    | cons b l2 => simp [hf, ih]

theorem zipWith_replicate_left {α β γ : Type} (f : α → β → γ) (a : α) :
    ∀ (n : ℕ) (l : List β),
      List.zipWith f (List.replicate n a) l = (l.take n).map (f a) := by
  intro n
  induction n with
  | zero => intro l; simp
  | succ n ih =>
    intro l
    cases l with
    | nil => simp
    | cons b l => simp [List.replicate_succ, ih]

theorem zipWith_append_left {α β γ : Type} (f : α → β → γ) :
    ∀ (A B : List α) (l : List β),
      List.zipWith f (A ++ B) l
        = List.zipWith f A (l.take A.length) ++ List.zipWith f B (l.drop A.length) := by
  intro A
  induction A with
  | nil => intro B l; simp
  | cons a A ih =>
    intro B l
    cases l with
    | nil => simp
    | cons x l => simp [ih]

/-- The scatter-add over `repeat_interleave` indices recovers, at row
`b`, the sum of the `b`-th consecutive segment of the value list, the
segment boundaries being the partial sums of `N`. -/
theorem scatterAdd_uIdx {d : ℕ} :
    ∀ (N : List ℕ) (vals : List (Fin d → ℚ)) (b : ℕ),
      N.sum ≤ vals.length → b < N.length →
      scatterAdd (uIdx N) vals b
        = ((vals.drop ((N.take b).sum)).take (N.getD b 0)).sum := by
  intro N
  induction N with
  | nil =>
    intro vals b _ hb
    simp at hb
  | cons n rest ih =>
    intro vals b hsum hb
    unfold scatterAdd uIdx
    rw [zipWith_append_left, List.sum_append, List.length_replicate]
    cases b with
    | zero =>
      have hz : (List.zipWith (fun i v => if i = 0 then v else 0)
          ((uIdx rest).map (· + 1)) (vals.drop n)).sum = (0 : Fin d → ℚ) := by
        rw [List.zipWith_map_left]
        exact sum_zipWith_eq_zero _ (by intro a b; simp) _ _
      rw [hz, add_zero, zipWith_replicate_left]
      simp [List.take_take]
    | succ s =>
      have h1 : (List.zipWith (fun i v => if i = s + 1 then v else 0)
          (List.replicate n 0) (vals.take n)).sum = (0 : Fin d → ℚ) := by
        rw [zipWith_replicate_left]
        have hconst : (fun v : Fin d → ℚ => if (0 : ℕ) = s + 1 then v else 0)
            = fun _ => 0 := by
          funext v
          rw [if_neg (by omega)]
        rw [hconst]
        simp
      rw [h1, zero_add, List.zipWith_map_left]
      have hshift : (fun (i : ℕ) (v : Fin d → ℚ) => if i + 1 = s + 1 then v else 0)
          = fun i v => if i = s then v else 0 := by
        funext i v
        by_cases h : i = s
        · rw [if_pos (by omega), if_pos h]
        · rw [if_neg (by omega), if_neg h]
      rw [hshift]
      have hrec : (List.zipWith (fun i v => if i = s then v else 0)
          (uIdx rest) (vals.drop n)).sum = scatterAdd (uIdx rest) (vals.drop n) s := rfl
      rw [hrec, ih (vals.drop n) s
        (by
          simp only [List.sum_cons] at hsum
          rw [List.length_drop]
          omega)
        (by simpa using hb)]
      rw [List.drop_drop, List.take_succ_cons, List.sum_cons, List.getD_cons_succ]

/-- Trainable state of `FISMrating`: the two embedding models `P`, `Q`
(outputs of the GNNs, viewed as item-indexed embedding families), the
user and item biases, and the exponent `alpha`. -/
structure FISMParams (d : ℕ) where
  P : ℕ → Fin d → ℚ
  Q : ℕ → Fin d → ℚ
  b_u : ℕ → ℚ
  b_i : ℕ → ℚ
  alpha : ℕ

/-- Dot product along the embedding dimension: `(x * y).sum(1)` row-wise. -/
def dotQ {d : ℕ} (x y : Fin d → ℚ) : ℚ := ∑ i, x i * y i

/-- `FISMrating.forward`.  Returns the positive ratings `r` (indexed by
batch position) and, when `I_neg` is given, the matrix of negative
ratings.  `p_sum` is the scatter-add of `P(I_U)` over
`U_idx = arange(batch).repeat_interleave(N_U)`; in training mode
(`test = false`) the target item's own embedding is subtracted and the
normalizer is `(N_U - 1).clamp(min=1) ** alpha`, in test mode it is
`N_U ** alpha`. -/
def FISMforward {d : ℕ} (M : FISMParams d) (I U : List ℕ)
    (I_neg : Option (List (List ℕ))) (I_U N_U : List ℕ) (test : Bool) :
    List ℚ × Option (List (List ℚ)) :=
  let p_sum := fun b => scatterAdd (uIdx N_U) (I_U.map M.P) b
  let p_ctx := fun b => if test then p_sum b else p_sum b - M.P (I.getD b 0)
  let normv := fun b =>
    if test then ((N_U.getD b 0 : ℕ) : ℚ) ^ M.alpha
    else ((max (N_U.getD b 0 - 1) 1 : ℕ) : ℚ) ^ M.alpha
  let pq := fun b => dotQ (p_ctx b) (M.Q (I.getD b 0)) / normv b
  let r := (List.range I.length).map (fun b =>
    M.b_u (U.getD b 0) + M.b_i (I.getD b 0) + pq b)
  match I_neg with
  | none => (r, none)
  | some negs =>
    (r, some ((List.range I.length).map (fun b =>
      (negs.getD b []).map (fun i =>
        M.b_u (U.getD b 0) + M.b_i i + dotQ (p_ctx b) (M.Q i) / normv b))))

/-- The interacted items of the batch's `b`-th user, read off from the
flat concatenation `I_U` and the per-user counts `N_U` (the spec's
`I_U` for user `b`). -/
def fismCtxItems (I_U N_U : List ℕ) (b : ℕ) : List ℕ :=
  (I_U.drop ((N_U.take b).sum)).take (N_U.getD b 0)

/-- The context vector of the claim: the sum of the `P`-embeddings of
the `b`-th user's interacted items, minus the target's own embedding in
training mode. -/
def fismSpecCtx {d : ℕ} (M : FISMParams d) (I I_U N_U : List ℕ)
    (test : Bool) (b : ℕ) : Fin d → ℚ :=
  ((fismCtxItems I_U N_U b).map M.P).sum - (if test then 0 else M.P (I.getD b 0))

/-- The normalizer of the claim: `N_U ** alpha` in test mode,
`max(N_U - 1, 1) ** alpha` in training mode. -/
def fismSpecNorm {d : ℕ} (M : FISMParams d) (N_U : List ℕ)
    (test : Bool) (b : ℕ) : ℚ :=
  if test then ((N_U.getD b 0 : ℕ) : ℚ) ^ M.alpha
  else ((max (N_U.getD b 0 - 1) 1 : ℕ) : ℚ) ^ M.alpha

theorem getD_range (n b d : ℕ) (h : b < n) : (List.range n).getD b d = b := by
  rw [List.getD_eq_getElem?_getD, List.getElem?_range h]
  rfl

/-- C1: `FISMrating.forward` rates item `I[b]` for user `U[b]` as
`b_u[U[b]] + b_i[I[b]] + (p_ctx . Q(I[b])) / norm`, where `p_ctx` is the
sum of the `P`-embeddings of that user's interacted items (minus
`P(I[b])` in training mode) and `norm` is `N_U[b] ** alpha` in test mode
and `max(N_U[b] - 1, 1) ** alpha` in training mode; the negative items
are scored with the same context vector and the same normalizer. -/
theorem FISMrating_forward_spec {d : ℕ} (M : FISMParams d) (I U I_U N_U : List ℕ)
    (negs : List (List ℕ)) (test : Bool) (b : ℕ)
    (hlen : I.length = N_U.length)
    (hIU : N_U.sum ≤ I_U.length)
    (hb : b < I.length) :
    (FISMforward M I U (some negs) I_U N_U test).1.getD b 0
        = M.b_u (U.getD b 0) + M.b_i (I.getD b 0)
          + dotQ (fismSpecCtx M I I_U N_U test b) (M.Q (I.getD b 0))
              / fismSpecNorm M N_U test b
    ∧ ∀ out_neg : List (List ℚ),
        (FISMforward M I U (some negs) I_U N_U test).2 = some out_neg →
        ∀ j < (negs.getD b []).length,
          (out_neg.getD b []).getD j 0
            = M.b_u (U.getD b 0) + M.b_i ((negs.getD b []).getD j 0)
              + dotQ (fismSpecCtx M I I_U N_U test b)
                  (M.Q ((negs.getD b []).getD j 0))
                / fismSpecNorm M N_U test b := by
  have hctx : (if test
        then scatterAdd (uIdx N_U) (I_U.map M.P) b
        else scatterAdd (uIdx N_U) (I_U.map M.P) b - M.P (I.getD b 0))
      = fismSpecCtx M I I_U N_U test b := by
    have hseg : scatterAdd (uIdx N_U) (I_U.map M.P) b
        = ((fismCtxItems I_U N_U b).map M.P).sum := by
      rw [scatterAdd_uIdx N_U (I_U.map M.P) b (by simpa using hIU) (by omega)]
      unfold fismCtxItems
      rw [List.map_take, List.map_drop]
    unfold fismSpecCtx
    cases test with
    | false => rw [if_neg (by simp), if_neg (by simp), hseg]
    | true => rw [if_pos rfl, if_pos rfl, hseg, sub_zero]
  constructor
  · simp only [FISMforward]
    rw [getD_map _ 0 0 _ b (by simpa using hb), getD_range I.length b 0 hb, hctx]
    rfl
  · intro out_neg hout j hj
    simp only [FISMforward] at hout
    have hrows : out_neg = (List.range I.length).map (fun b2 =>
        (negs.getD b2 []).map (fun i =>
          M.b_u (U.getD b2 0) + M.b_i i
            + dotQ (if test
                then scatterAdd (uIdx N_U) (I_U.map M.P) b2
                else scatterAdd (uIdx N_U) (I_U.map M.P) b2 - M.P (I.getD b2 0))
                (M.Q i)
              / (if test then ((N_U.getD b2 0 : ℕ) : ℚ) ^ M.alpha
                 else ((max (N_U.getD b2 0 - 1) 1 : ℕ) : ℚ) ^ M.alpha)))
        := (Option.some.inj hout).symm
    rw [hrows, getD_map _ ([] : List ℚ) 0 _ b (by simpa using hb),
      getD_range I.length b 0 hb,
      getD_map _ 0 0 _ j hj, hctx]
    rfl

/-- Concrete parameters for the C1 witness. -/
def fismExample : FISMParams 1 :=
  ⟨fun i _ => (i : ℚ), fun i _ => (i : ℚ), fun u => (u : ℚ), fun i => (i : ℚ), 1⟩

/-- Witness for C1 at a concrete input. -/
theorem FISMrating_forward_spec_witness :
    (FISMforward fismExample [0, 1] [0, 1] (some [[2], [3]]) [5, 6, 7] [1, 2]
        false).1.getD 1 0
      = fismExample.b_u (([0, 1] : List ℕ).getD 1 0)
        + fismExample.b_i (([0, 1] : List ℕ).getD 1 0)
        + dotQ (fismSpecCtx fismExample [0, 1] [5, 6, 7] [1, 2] false 1)
            (fismExample.Q (([0, 1] : List ℕ).getD 1 0))
          / fismSpecNorm fismExample [1, 2] false 1 :=
  (FISMrating_forward_spec fismExample [0, 1] [0, 1] [5, 6, 7] [1, 2] [[2], [3]]
    false 1 (by decide) (by decide) (by decide)).1

/-! ## C10: load_topk_pred from the retail analysis notebook

`load_topk_pred(file_name, ctx_size, k)` scans the file line by line:
a line whose first token starts with `row` contributes `strs[2:]` as a
context (after `assert len(ctx) == ctx_size`), a line whose first token
starts with `recommend` contributes `strs[1:]` parsed as ints.  The
zipped (context, prediction) pairs are then poured into a Python dict
keyed by the joined context tokens (later occurrences overwrite, the
first occurrence keeps its position), and the dict is read back as the
parsed contexts and their predictions.

Tokens are modelled as `List Char` (they come from `line.split()`, so
they contain no whitespace, which makes joining with a blank injective;
the dict key is therefore modelled as the token list itself).  Python's
`int` is modelled by `parseIntTok?`, `str.startswith` by
`tokIsPrefix`. -/

/-- `str.startswith(pre)` on whitespace-free tokens. -/
def tokIsPrefix : List Char → List Char → Bool
  | [], _ => true
  | _ :: _, [] => false
  | a :: p, b :: s => a == b && tokIsPrefix p s

/-- Digit run parser: `acc` carries the value of the digits read so far. -/
def parseNatAux : List Char → ℕ → Option ℕ
  | [], acc => some acc
  | c :: rest, acc =>
    if c.toNat < 48 ∨ 57 < c.toNat then none
    else parseNatAux rest (acc * 10 + (c.toNat - 48))

/-- Python's `int` on a decimal token (optional leading minus sign);
`none` models the `ValueError` on malformed input. -/
def parseIntTok? (s : List Char) : Option ℤ :=
  match s with
  | [] => none
  | c :: rest =>
    if c = '-' then
      match rest with
      | [] => none
      | _ :: _ => (parseNatAux rest 0).map (fun n => -(n : ℤ))
    else (parseNatAux (c :: rest) 0).map (fun n => (n : ℤ))

/-- The token `row`. -/
def rowTok : List Char := ['r', 'o', 'w']

/-- The token `recommend`. -/
def recTok : List Char := ['r', 'e', 'c', 'o', 'm', 'm', 'e', 'n', 'd']

/-- First pass of `load_topk_pred`: collect the contexts of the `row`
lines (checking the `len(ctx) == ctx_size` assertion) and the parsed
predictions of the `recommend` lines; `none` models an assertion
failure, an `IndexError` on an empty line, or an int-parse error. -/
def loadRawPairs (cs : ℕ) :
    List (List (List Char)) → Option (List (List (List Char)) × List (List ℤ))
  | [] => some ([], [])
  | line :: rest =>
    match line with
    | [] => none
    | s :: _ =>
      if tokIsPrefix rowTok s then
        if (line.drop 2).length = cs then
          (loadRawPairs cs rest).map (fun cp => (line.drop 2 :: cp.1, cp.2))
        else none
      else if tokIsPrefix recTok s then
        match (line.drop 1).mapM parseIntTok? with
        | none => none
        | some pred => (loadRawPairs cs rest).map (fun cp => (cp.1, pred :: cp.2))
      else loadRawPairs cs rest

/-- One Python dict assignment `d[k] = v`: overwrite in place if the key
exists, else append. -/
def dictUpsert {κ β : Type} [DecidableEq κ] (k : κ) (v : β) :
    List (κ × β) → List (κ × β)
  | [] => [(k, v)]
  | (k2, v2) :: rest =>
    if k2 = k then (k, v) :: rest else (k2, v2) :: dictUpsert k v rest

/-- The dict built by `for ctx, pred in zip(ctxs, preds): d[key] = pred`. -/
def buildDict {κ β : Type} [DecidableEq κ] (pairs : List (κ × β)) : List (κ × β) :=
  pairs.foldl (fun dct p => dictUpsert p.1 p.2 dct) []

/-- First-match association lookup (Python `d[k]`). -/
def dictLookup {κ β : Type} [DecidableEq κ] (k : κ) : List (κ × β) → Option β
  | [] => none
  | (k2, v) :: rest => if k2 = k then some v else dictLookup k rest

/-- The value attached to the last occurrence of key `k` in a pair list. -/
def lookupLast {κ β : Type} [DecidableEq κ] (k : κ) (pairs : List (κ × β)) : Option β :=
  pairs.foldl (fun acc p => if p.1 = k then some p.2 else acc) none

/-- `load_topk_pred`: zip the row contexts with the recommend
predictions, deduplicate through the dict, then parse the stored
contexts back to ints. -/
def load_topk_pred (cs : ℕ) (lines : List (List (List Char))) :
    Option (List (List ℤ) × List (List ℤ)) :=
  (loadRawPairs cs lines).bind (fun cp =>
    ((buildDict (cp.1.zip cp.2)).mapM
        (fun kv : List (List Char) × List ℤ =>
          (kv.1.mapM parseIntTok?).map (fun c => (c, kv.2)))).map
      (fun l => (l.map Prod.fst, l.map Prod.snd)))

theorem mem_keys_dictUpsert {κ β : Type} [DecidableEq κ] (k k2 : κ) (v : β) :
    ∀ d : List (κ × β),
      k2 ∈ (dictUpsert k v d).map Prod.fst ↔ (k2 = k ∨ k2 ∈ d.map Prod.fst) := by
  intro d
  induction d with
  | nil => simp [dictUpsert]
  | cons p rest ih =>
    obtain ⟨k3, v3⟩ := p
    by_cases h : k3 = k
    · subst h
      simp [dictUpsert]
    · simp only [dictUpsert, if_neg h, List.map_cons, List.mem_cons, ih]
      constructor
      · rintro (h1 | h1 | h1) <;> tauto
      · rintro (h1 | h1 | h1) <;> tauto

theorem nodup_keys_dictUpsert {κ β : Type} [DecidableEq κ] (k : κ) (v : β) :
    ∀ d : List (κ × β), (d.map Prod.fst).Nodup →
      ((dictUpsert k v d).map Prod.fst).Nodup := by
  intro d
  induction d with
  | nil => intro _; simp [dictUpsert]
  | cons p rest ih =>
    obtain ⟨k3, v3⟩ := p
    intro hnd
    simp only [List.map_cons, List.nodup_cons] at hnd
    by_cases h : k3 = k
    · have hu : dictUpsert k v ((k3, v3) :: rest) = (k, v) :: rest := by
        simp [dictUpsert, h]
      rw [hu, List.map_cons, List.nodup_cons]
      refine ⟨?_, hnd.2⟩
      rw [← h]
      exact hnd.1
    · simp only [dictUpsert, if_neg h, List.map_cons, List.nodup_cons]
      refine ⟨?_, ih hnd.2⟩
      rw [mem_keys_dictUpsert]
      rintro (h1 | h1)
      · exact h h1
      · exact hnd.1 h1

theorem nodup_keys_buildDict {κ β : Type} [DecidableEq κ] (pairs : List (κ × β)) :
    ((buildDict pairs).map Prod.fst).Nodup := by
  have hgen : ∀ (ps : List (κ × β)) (d : List (κ × β)), (d.map Prod.fst).Nodup →
      ((ps.foldl (fun dct p => dictUpsert p.1 p.2 dct) d).map Prod.fst).Nodup := by
    intro ps
    induction ps with
    | nil => intro d hd; exact hd
    | cons p rest ih =>
      intro d hd
      exact ih _ (nodup_keys_dictUpsert p.1 p.2 d hd)
  exact hgen pairs [] (by simp)

theorem dictLookup_upsert_self {κ β : Type} [DecidableEq κ] (k : κ) (v : β) :
    ∀ d : List (κ × β), dictLookup k (dictUpsert k v d) = some v := by
  intro d
  induction d with
  | nil => simp [dictUpsert, dictLookup]
  | cons p rest ih =>
    obtain ⟨k3, v3⟩ := p
    by_cases h : k3 = k
    · subst h
      simp [dictUpsert, dictLookup]
    · simp [dictUpsert, dictLookup, h, ih]

theorem dictLookup_upsert_other {κ β : Type} [DecidableEq κ] (k k2 : κ) (v : β)
    (hne : k2 ≠ k) :
    ∀ d : List (κ × β), dictLookup k2 (dictUpsert k v d) = dictLookup k2 d := by
  intro d
  induction d with
  | nil => simp [dictUpsert, dictLookup, Ne.symm hne]
  | cons p rest ih =>
    obtain ⟨k3, v3⟩ := p
    by_cases h : k3 = k
    · subst h
      simp [dictUpsert, dictLookup, Ne.symm hne]
    · simp [dictUpsert, dictLookup, h, ih]

theorem foldl_last_shift {κ β : Type} [DecidableEq κ] (k : κ) :
    ∀ (pairs : List (κ × β)) (acc : Option β),
      pairs.foldl (fun a p => if p.1 = k then some p.2 else a) acc
        = match pairs.foldl (fun a p => if p.1 = k then some p.2 else a) none with
          | some v => some v
          | none => acc := by
  intro pairs
  induction pairs with
  | nil => intro acc; rfl
  | cons q rest ih =>
    intro acc
    simp only [List.foldl_cons]
    rw [ih (if q.1 = k then some q.2 else acc), ih (if q.1 = k then some q.2 else none)]
    cases rest.foldl (fun a p => if p.1 = k then some p.2 else a) none with
    | some v => rfl
    | none =>
      by_cases h : q.1 = k
      · simp [h]
      · simp [h]

theorem dictLookup_buildDict {κ β : Type} [DecidableEq κ] (k : κ)
    (pairs : List (κ × β)) :
    dictLookup k (buildDict pairs) = lookupLast k pairs := by
  have hgen : ∀ (ps : List (κ × β)) (dct : List (κ × β)),
      dictLookup k (ps.foldl (fun acc p => dictUpsert p.1 p.2 acc) dct)
        = match lookupLast k ps with
          | some v => some v
          | none => dictLookup k dct := by
    intro ps
    induction ps with
    | nil => intro dct; rfl
    | cons q rest ih =>
      intro dct
      simp only [List.foldl_cons, lookupLast]
      rw [ih (dictUpsert q.1 q.2 dct)]
      rw [foldl_last_shift k rest (if q.1 = k then some q.2 else none)]
      cases hr : rest.foldl (fun a p => if p.1 = k then some p.2 else a) none with
      | some v =>
        have : lookupLast k rest = some v := hr
        rw [this]
      | none =>
        have : lookupLast k rest = none := hr
        rw [this]
        by_cases h : q.1 = k
        · subst h
          simp [dictLookup_upsert_self]
        · simp only [if_neg h]
          exact dictLookup_upsert_other q.1 k q.2 (fun hc => h hc.symm) dct
  unfold buildDict
  rw [hgen pairs []]
  cases lookupLast k pairs with
  | some v => rfl
  | none => rfl

theorem loadRawPairs_cons (cs : ℕ) (s : List Char) (toks : List (List Char))
    (rest : List (List (List Char))) :
    loadRawPairs cs ((s :: toks) :: rest)
      = (if tokIsPrefix rowTok s then
           if ((s :: toks).drop 2).length = cs then
             (loadRawPairs cs rest).map (fun cp => ((s :: toks).drop 2 :: cp.1, cp.2))
           else none
         else if tokIsPrefix recTok s then
           match ((s :: toks).drop 1).mapM parseIntTok? with
           | none => none
           | some pred => (loadRawPairs cs rest).map (fun cp => (cp.1, pred :: cp.2))
         else loadRawPairs cs rest) := rfl

theorem loadRawPairs_some_of_cons (cs : ℕ) (line : List (List Char))
    (rest : List (List (List Char))) (cp : List (List (List Char)) × List (List ℤ))
    (h : loadRawPairs cs (line :: rest) = some cp) :
    ∃ cp2, loadRawPairs cs rest = some cp2 := by
  cases line with
  | nil => exact Option.noConfusion h
  | cons s toks =>
    rw [loadRawPairs_cons] at h
    by_cases hrow : tokIsPrefix rowTok s
    · rw [if_pos hrow] at h
      by_cases hlen : ((s :: toks).drop 2).length = cs
      · rw [if_pos hlen] at h
        rcases Option.map_eq_some'.mp h with ⟨cp2, hcp2, _⟩
        exact ⟨cp2, hcp2⟩
      · rw [if_neg hlen] at h
        exact Option.noConfusion h
    · rw [if_neg hrow] at h
      by_cases hrec : tokIsPrefix recTok s
      · rw [if_pos hrec] at h
        cases hm : ((s :: toks).drop 1).mapM parseIntTok? with
        | none =>
          rw [hm] at h
          exact Option.noConfusion h
        | some pred =>
          rw [hm] at h
          rcases Option.map_eq_some'.mp h with ⟨cp2, hcp2, _⟩
          exact ⟨cp2, hcp2⟩
      · rw [if_neg hrec] at h
        exact ⟨cp, h⟩

theorem loadRawPairs_row_len (cs : ℕ) :
    ∀ (lines : List (List (List Char))) (cp : List (List (List Char)) × List (List ℤ)),
      loadRawPairs cs lines = some cp →
      ∀ line ∈ lines, ∀ s, line.head? = some s → tokIsPrefix rowTok s = true →
        (line.drop 2).length = cs := by
  intro lines
  induction lines with
  | nil =>
    intro cp _ line hline
    simp at hline
  | cons line rest ih =>
    intro cp h l hl s hhead hrow
    rcases List.mem_cons.mp hl with rfl | hmem
    · cases l with
      | nil => exact Option.noConfusion hhead
      | cons s0 toks =>
        have hs : s0 = s := by
          simpa using hhead
        subst hs
        rw [loadRawPairs_cons, if_pos hrow] at h
        by_cases hlen : ((s0 :: toks).drop 2).length = cs
        · exact hlen
        · rw [if_neg hlen] at h
          exact Option.noConfusion h
    · rcases loadRawPairs_some_of_cons cs line rest cp h with ⟨cp2, hcp2⟩
      exact ih cp2 hcp2 l hmem s hhead hrow

/-- C10 (amended): when `load_topk_pred` succeeds, the returned context
and prediction lists have equal length; the dict keys (the contexts as
token lists) are pairwise distinct, and the prediction stored for a
key is the one of its last occurrence among the zipped row/recommend
pairs; and every `row` line's context has exactly `ctx_size` tokens
(the assertion), else the function fails.  Distinctness of the parsed
integer contexts does not hold in general, see the counterexample. -/
theorem load_topk_pred_spec (cs : ℕ) (lines : List (List (List Char)))
    (ctxs preds : List (List ℤ))
    (h : load_topk_pred cs lines = some (ctxs, preds)) :
    ctxs.length = preds.length
    ∧ (∀ cp, loadRawPairs cs lines = some cp →
        ((buildDict (cp.1.zip cp.2)).map Prod.fst).Nodup
        ∧ ∀ k, dictLookup k (buildDict (cp.1.zip cp.2)) = lookupLast k (cp.1.zip cp.2))
    ∧ ∀ line ∈ lines, ∀ s, line.head? = some s → tokIsPrefix rowTok s = true →
        (line.drop 2).length = cs := by
  unfold load_topk_pred at h
  rcases Option.bind_eq_some.mp h with ⟨cp, hcp, hf⟩
  rcases Option.map_eq_some'.mp hf with ⟨l, _, heq⟩
  have hctxs : ctxs = l.map Prod.fst := by
    have := congrArg Prod.fst heq
    simpa using this.symm
  have hpreds : preds = l.map Prod.snd := by
    have := congrArg Prod.snd heq
    simpa using this.symm
  refine ⟨?_, ?_, ?_⟩
  · rw [hctxs, hpreds]
    simp
  · intro cp2 _
    exact ⟨nodup_keys_buildDict _, fun k => dictLookup_buildDict k _⟩
  · exact loadRawPairs_row_len cs lines cp hcp

/-- The concrete input file of the C10 counterexample: contexts `01`
and `1` on two row lines. -/
def c10Lines : List (List (List Char)) :=
  [[rowTok, ['0', ':'], ['0', '1']], [recTok, ['5']],
   [rowTok, ['1', ':'], ['1']], [recTok, ['6']]]

/-- C10 counterexample: on `c10Lines` the two distinct context tokens
`01` and `1` both parse to the integer context `[1]`, so the returned
context list is not pairwise distinct, contrary to the claim. -/
theorem load_topk_pred_counterexample :
    load_topk_pred 1 c10Lines = some ([[1], [1]], [[5], [6]])
    ∧ ¬ ([[1], [1]] : List (List ℤ)).Pairwise (fun a b => a ≠ b) := by
  constructor
  · decide
  · decide

/-- Witness for C10 (amended) at a concrete input. -/
theorem load_topk_pred_spec_witness :
    ([[1], [1]] : List (List ℤ)).length = ([[5], [6]] : List (List ℤ)).length
    ∧ ∀ line ∈ c10Lines, ∀ s, line.head? = some s → tokIsPrefix rowTok s = true →
        (line.drop 2).length = 1 := by
  have h := load_topk_pred_spec 1 c10Lines [[1], [1]] [[5], [6]] (by decide)
  exact ⟨h.1, h.2.2⟩

/-! ## C7: pick_test from process_movielens.ipynb

`pick_test(user_movie_spm)` reads the COO arrays `users`, `movies`,
then converts the matrix to CSR to get `indptr`, and for every user `i`
draws two distinct positions `idx` from `range(indptr[i], indptr[i+1])`
(positions in the CSR order).  It records
`valid_set[i] = movies[idx[0]]`, `test_set[i] = movies[idx[1]]` —
indexing the ORIGINAL COO array with CSR positions — marks
`picks[idx] = 1`, and rebuilds the training matrix from the unmarked
COO entries.

The interaction matrix is embedded as its COO entry list
`entries : List (ℕ × ℕ)` of (user, movie) pairs in storage order;
`tocsr()` stably groups the entries by user, so the CSR row of user `i`
is `entries.filter (·.1 = i)` and `indptr` is the running sum of the
row lengths.  The random draw is an oracle `choice` giving the two
chosen positions per user. -/

/-- The CSR row of user `i`: the entries of user `i` in storage order
(SciPy's COO-to-CSR conversion is stable within a row). -/
def rowEntries (entries : List (ℕ × ℕ)) (i : ℕ) : List (ℕ × ℕ) :=
  entries.filter (fun e => decide (e.1 = i))

/-- `indptr[i]` of the CSR conversion: number of entries of users `< i`. -/
def csrIndptr (entries : List (ℕ × ℕ)) (i : ℕ) : ℕ :=
  ((List.range i).map (fun j => (rowEntries entries j).length)).sum

/-- The positions with `picks == 1` after the loop. -/
def pickedSet (choice : ℕ → ℕ × ℕ) (numUsers : ℕ) : Finset ℕ :=
  (Finset.range numUsers).biUnion (fun i => {(choice i).1, (choice i).2})

/-- Legality of the oracle: `np.random.choice(arange(indptr[i],
indptr[i+1]), 2, replace=False)` returns two distinct positions inside
the user's CSR range. -/
def validChoice (entries : List (ℕ × ℕ)) (choice : ℕ → ℕ × ℕ) (numUsers : ℕ) : Prop :=
  ∀ i < numUsers,
    csrIndptr entries i ≤ (choice i).1 ∧ (choice i).1 < csrIndptr entries (i + 1)
    ∧ csrIndptr entries i ≤ (choice i).2 ∧ (choice i).2 < csrIndptr entries (i + 1)
    ∧ (choice i).1 ≠ (choice i).2

/-- `valid_set[i] = movies[idx[0]]`: the ORIGINAL COO column array
indexed at a CSR position. -/
def pickTestValid (entries : List (ℕ × ℕ)) (choice : ℕ → ℕ × ℕ) (i : ℕ) : ℕ :=
  (entries.getD (choice i).1 (0, 0)).2

/-- `test_set[i] = movies[idx[1]]`. -/
def pickTestTest (entries : List (ℕ × ℕ)) (choice : ℕ → ℕ × ℕ) (i : ℕ) : ℕ :=
  (entries.getD (choice i).2 (0, 0)).2

/-- The training matrix rebuilt from `users[picks == 0]`,
`movies[picks == 0]`: the entries at unmarked positions, in order. -/
def pickTestTrain (entries : List (ℕ × ℕ)) (choice : ℕ → ℕ × ℕ) (numUsers : ℕ) :
    List (ℕ × ℕ) :=
  ((List.range entries.length).filter
      (fun p => decide (p ∉ pickedSet choice numUsers))).map
    (fun p => entries.getD p (0, 0))

/-- The concrete COO entry list of the C7 counterexample: user 1's
entries stored before user 0's, so the COO order disagrees with the CSR
order. -/
def c7Entries : List (ℕ × ℕ) := [(1, 5), (1, 7), (0, 2), (0, 3)]

/-- The concrete (legal) draw of the C7 counterexample. -/
def c7Choice : ℕ → ℕ × ℕ := fun i => if i = 0 then (0, 1) else (2, 3)

/-- C7 counterexample: on a matrix whose COO entries are not grouped in
user order (every user still has two interactions), a legal draw makes
`pick_test` designate movie `5` as user 0's validation item even though
user 0's interacted movies are `[2, 3]` — the removed/designated
interactions are not drawn from that user's movies, contradicting the
claim. -/
theorem pick_test_counterexample :
    validChoice c7Entries c7Choice 2
    ∧ pickTestValid c7Entries c7Choice 0 = 5
    ∧ (rowEntries c7Entries 0).map Prod.snd = [2, 3]
    ∧ pickTestValid c7Entries c7Choice 0 ∉ (rowEntries c7Entries 0).map Prod.snd := by
  refine ⟨?_, by decide, by decide, by decide⟩
  unfold validChoice
  decide

theorem filter_flatMap {α β : Type} (p : β → Bool) (f : α → List β) :
    ∀ l : List α, (l.flatMap f).filter p = l.flatMap (fun a => (f a).filter p) := by
  intro l
  induction l with
  | nil => simp
  | cons a l ih => simp [List.filter_append, ih]

theorem flatMap_nil_of {α β : Type} (f : α → List β) :
    ∀ l : List α, (∀ j ∈ l, f j = []) → l.flatMap f = [] := by
  intro l
  induction l with
  | nil => intro _; simp
  | cons a l ih =>
    intro h
    simp only [List.flatMap_cons, h a (by simp)]
    exact ih (fun j hj => h j (by simp [hj]))

theorem flatMap_if_single {α : Type} (g : ℕ → List α) :
    ∀ (n i : ℕ), i < n →
      (List.range n).flatMap (fun j => if j = i then g j else []) = g i := by
  intro n
  induction n with
  | zero => intro i h; simp at h
  | succ n ih =>
    intro i hi
    rw [List.range_succ, List.flatMap_append]
    by_cases h : i < n
    · rw [ih i h]
      simp [show n ≠ i by omega]
    · have hin : i = n := by omega
      subst hin
      have hzero : (List.range i).flatMap (fun j => if j = i then g j else []) = [] := by
        apply flatMap_nil_of
        intro j hj
        rw [if_neg]
        intro hc
        rw [hc] at hj
        simp at hj
      rw [hzero]
      simp

theorem rowEntries_grouped (rows : ℕ → List ℕ) (numUsers : ℕ)
    (entries : List (ℕ × ℕ))
    (hE : entries
      = (List.range numUsers).flatMap (fun i => (rows i).map (fun m => (i, m))))
    (i : ℕ) (hi : i < numUsers) :
    rowEntries entries i = (rows i).map (fun m => (i, m)) := by
  rw [rowEntries, hE, filter_flatMap]
  have hpt : ∀ j : ℕ, ((rows j).map (fun m => (j, m))).filter (fun e => decide (e.1 = i))
      = if j = i then (rows j).map (fun m => (j, m)) else [] := by
    intro j
    rw [List.filter_map]
    by_cases h : j = i
    · subst h
      have hp : ((fun e : ℕ × ℕ => decide (e.1 = j)) ∘ fun m : ℕ => (j, m))
          = fun _ => true := by
        funext m
        simp
      rw [if_pos rfl, hp]
      simp
    · simp [Function.comp, h]
  have hfun : (fun j => ((rows j).map (fun m => (j, m))).filter (fun e => decide (e.1 = i)))
      = fun j => if j = i then (rows j).map (fun m => (j, m)) else [] := funext hpt
  rw [hfun, flatMap_if_single _ numUsers i hi]

theorem csrIndptr_grouped (rows : ℕ → List ℕ) (numUsers : ℕ)
    (entries : List (ℕ × ℕ))
    (hE : entries
      = (List.range numUsers).flatMap (fun i => (rows i).map (fun m => (i, m))))
    (i : ℕ) (hi : i ≤ numUsers) :
    csrIndptr entries i = ((List.range i).map (fun j => (rows j).length)).sum := by
  unfold csrIndptr
  congr 1
  apply List.map_congr_left
  intro j hj
  have hj2 : j < numUsers := by
    have := List.mem_range.mp hj
    omega
  rw [rowEntries_grouped rows numUsers entries hE j hj2, List.length_map]

theorem csrIndptr_succ (entries : List (ℕ × ℕ)) (i : ℕ) :
    csrIndptr entries (i + 1) = csrIndptr entries i + (rowEntries entries i).length := by
  unfold csrIndptr
  rw [List.range_succ, List.map_append, List.sum_append]
  simp

theorem csrIndptr_mono (entries : List (ℕ × ℕ)) (i j : ℕ) (hij : i ≤ j) :
    csrIndptr entries i ≤ csrIndptr entries j := by
  refine Nat.le_induction ?_ ?_ j hij
  · exact le_refl _
  · intro n _ ih
    rw [csrIndptr_succ]
    omega

theorem csrIndptr_total (rows : ℕ → List ℕ) (numUsers : ℕ)
    (entries : List (ℕ × ℕ))
    (hE : entries
      = (List.range numUsers).flatMap (fun i => (rows i).map (fun m => (i, m)))) :
    csrIndptr entries numUsers = entries.length := by
  rw [csrIndptr_grouped rows numUsers entries hE numUsers (le_refl _), hE,
    List.length_flatMap]
  congr 1
  apply List.map_congr_left
  intro j _
  simp

theorem flatten_getD {α : Type} (d : α) :
    ∀ (L : List (List α)) (i t : ℕ), i < L.length → t < (L.getD i []).length →
      L.flatten.getD (((L.take i).map List.length).sum + t) d = (L.getD i []).getD t d := by
  intro L
  induction L with
  | nil => intro i t hi _; simp at hi
  | cons xs L ih =>
    intro i t hi ht
    cases i with
    | zero =>
      simp only [List.take_zero, List.map_nil, List.sum_nil, zero_add,
        List.getD_cons_zero] at ht ⊢
      rw [List.flatten_cons, List.getD_append _ _ _ t ht]
    | succ i =>
      simp only [List.getD_cons_succ] at ht ⊢
      rw [List.flatten_cons, List.take_succ_cons, List.map_cons, List.sum_cons]
      rw [List.getD_append_right _ _ _ _ (by omega)]
      have harith : xs.length + ((L.take i).map List.length).sum + t - xs.length
          = ((L.take i).map List.length).sum + t := by omega
      rw [harith]
      exact ih i t (by simpa using hi) ht

theorem entries_getD_grouped (rows : ℕ → List ℕ) (numUsers : ℕ)
    (entries : List (ℕ × ℕ))
    (hE : entries
      = (List.range numUsers).flatMap (fun i => (rows i).map (fun m => (i, m))))
    (i t : ℕ) (hi : i < numUsers) (ht : t < (rows i).length) :
    entries.getD (csrIndptr entries i + t) (0, 0) = (i, (rows i).getD t 0) := by
  have hEb : entries
      = ((List.range numUsers).map (fun j => (rows j).map (fun m => (j, m)))).flatten := by
    rw [hE]
    rfl
  have hblen : ((List.range numUsers).map
      (fun j => (rows j).map (fun m => (j, m)))).length = numUsers := by
    simp
  have hbi : ((List.range numUsers).map
      (fun j => (rows j).map (fun m => (j, m)))).getD i []
      = (rows i).map (fun m => (i, m)) := by
    rw [getD_map _ ([] : List (ℕ × ℕ)) 0 _ i (by simpa using hi),
      getD_range numUsers i 0 hi]
  have hoff : ((((List.range numUsers).map
      (fun j => (rows j).map (fun m => (j, m)))).take i).map List.length).sum
      = csrIndptr entries i := by
    rw [csrIndptr_grouped rows numUsers entries hE i (le_of_lt hi)]
    rw [← List.map_take, List.take_range, min_eq_left (le_of_lt hi), List.map_map]
    congr 1
    apply List.map_congr_left
    intro j _
    simp
  rw [← hoff, hEb,
    flatten_getD (0, 0) _ i t (by rw [hblen]; exact hi) (by rw [hbi, List.length_map]; exact ht),
    hbi, getD_map _ (0, 0) 0 _ t ht]

theorem pickedSet_card (entries : List (ℕ × ℕ)) (choice : ℕ → ℕ × ℕ) (numUsers : ℕ)
    (hv : validChoice entries choice numUsers) :
    (pickedSet choice numUsers).card = 2 * numUsers := by
  unfold pickedSet
  rw [Finset.card_biUnion]
  · have hc : ∀ i ∈ Finset.range numUsers,
        ({(choice i).1, (choice i).2} : Finset ℕ).card = 2 := by
      intro i hi
      exact Finset.card_pair (hv i (Finset.mem_range.mp hi)).2.2.2.2
    rw [Finset.sum_congr rfl hc, Finset.sum_const, Finset.card_range, smul_eq_mul]
    omega
  · intro x hx y hy hxy
    have hx2 := hv x (Finset.mem_range.mp hx)
    have hy2 := hv y (Finset.mem_range.mp hy)
    rw [Finset.disjoint_left]
    intro a hax hay
    simp only [Finset.mem_insert, Finset.mem_singleton] at hax hay
    have hax2 : csrIndptr entries x ≤ a ∧ a < csrIndptr entries (x + 1) := by
      rcases hax with rfl | rfl
      · exact ⟨hx2.1, hx2.2.1⟩
      · exact ⟨hx2.2.2.1, hx2.2.2.2.1⟩
    have hay2 : csrIndptr entries y ≤ a ∧ a < csrIndptr entries (y + 1) := by
      rcases hay with rfl | rfl
      · exact ⟨hy2.1, hy2.2.1⟩
      · exact ⟨hy2.2.2.1, hy2.2.2.2.1⟩
    rcases Nat.lt_or_ge x y with h | h
    · have := csrIndptr_mono entries (x + 1) y (by omega)
      omega
    · have hyx : y < x := by omega
      have := csrIndptr_mono entries (y + 1) x (by omega)
      omega

theorem pickedSet_subset (rows : ℕ → List ℕ) (numUsers : ℕ)
    (entries : List (ℕ × ℕ)) (choice : ℕ → ℕ × ℕ)
    (hE : entries
      = (List.range numUsers).flatMap (fun i => (rows i).map (fun m => (i, m))))
    (hv : validChoice entries choice numUsers) :
    pickedSet choice numUsers ⊆ Finset.range entries.length := by
  intro a ha
  rw [Finset.mem_range]
  unfold pickedSet at ha
  rw [Finset.mem_biUnion] at ha
  obtain ⟨i, hi, hai⟩ := ha
  simp only [Finset.mem_insert, Finset.mem_singleton] at hai
  have hi2 := hv i (Finset.mem_range.mp hi)
  have hmax : csrIndptr entries (i + 1) ≤ entries.length := by
    rw [← csrIndptr_total rows numUsers entries hE]
    exact csrIndptr_mono entries (i + 1) numUsers (Finset.mem_range.mp hi)
  rcases hai with rfl | rfl
  · omega
  · omega

theorem filter_range_map_getD_sublist {α : Type} (d : α) :
    ∀ (l : List α) (p : ℕ → Bool),
      List.Sublist (((List.range l.length).filter p).map (fun i => l.getD i d)) l := by
  intro l
  induction l with
  | nil => intro p; simp
  | cons x xs ih =>
    intro p
    rw [List.length_cons, List.range_succ_eq_map, List.filter_cons, List.filter_map]
    have hmm : ((List.filter (p ∘ Nat.succ) (List.range xs.length)).map Nat.succ).map
        (fun i => (x :: xs).getD i d)
        = (List.filter (p ∘ Nat.succ) (List.range xs.length)).map
            (fun i => xs.getD i d) := by
      rw [List.map_map]
      apply List.map_congr_left
      intro i _
      simp
    by_cases h0 : p 0
    · rw [if_pos h0, List.map_cons, hmm, List.getD_cons_zero]
      exact List.Sublist.cons₂ x (ih (p ∘ Nat.succ))
    · rw [if_neg h0, hmm]
      exact List.Sublist.cons x (ih (p ∘ Nat.succ))

theorem entries_nodup_grouped (rows : ℕ → List ℕ) (numUsers : ℕ)
    (entries : List (ℕ × ℕ))
    (hE : entries
      = (List.range numUsers).flatMap (fun i => (rows i).map (fun m => (i, m))))
    (hnd : ∀ i < numUsers, (rows i).Nodup) :
    entries.Nodup := by
  rw [hE, List.nodup_flatMap]
  constructor
  · intro i hi
    refine List.Nodup.map ?_ (hnd i (List.mem_range.mp hi))
    intro a b hab
    simpa using congrArg Prod.snd hab
  · refine (List.pairwise_lt_range numUsers).imp ?_
    intro a b hab e hea heb
    rcases List.mem_map.mp hea with ⟨ma, _, hma⟩
    rcases List.mem_map.mp heb with ⟨mb, _, hmb⟩
    have h1 : e.1 = a := by rw [← hma]
    have h2 : e.1 = b := by rw [← hmb]
    omega

/-- C7 (amended): when the COO entries are grouped by user in increasing
user order (as `tocsr` assumes of `pick_test`'s positional indexing),
each user's stored movies being pairwise distinct (a matrix stores at
most one entry per coordinate), `pick_test` removes exactly two
interactions per user — one designated the validation item and one the
test item, distinct from each other and drawn from that user's
interacted movies — and the training matrix contains every other
original interaction unchanged: it is a sublist of the original entry
list holding the entry of every unpicked position, it contains neither
designated pair, and its stored-entry count is `nnz - 2 * numUsers`.
Without the grouping hypothesis the designation part fails, see the
counterexample. -/
theorem pick_test_spec (rows : ℕ → List ℕ) (numUsers : ℕ)
    (entries : List (ℕ × ℕ)) (choice : ℕ → ℕ × ℕ)
    (hE : entries
      = (List.range numUsers).flatMap (fun i => (rows i).map (fun m => (i, m))))
    (hv : validChoice entries choice numUsers)
    (hnd : ∀ i < numUsers, (rows i).Nodup) :
    (pickTestTrain entries choice numUsers).length = entries.length - 2 * numUsers
    ∧ (∀ i < numUsers,
        pickTestValid entries choice i ∈ rows i
        ∧ pickTestTest entries choice i ∈ rows i
        ∧ pickTestValid entries choice i ≠ pickTestTest entries choice i)
    ∧ (∀ e ∈ pickTestTrain entries choice numUsers, e ∈ entries)
    ∧ List.Sublist (pickTestTrain entries choice numUsers) entries
    ∧ (∀ p < entries.length, p ∉ pickedSet choice numUsers →
        entries.getD p (0, 0) ∈ pickTestTrain entries choice numUsers)
    ∧ (∀ i < numUsers,
        (i, pickTestValid entries choice i) ∉ pickTestTrain entries choice numUsers
        ∧ (i, pickTestTest entries choice i) ∉ pickTestTrain entries choice numUsers) := by
  have hrowlen : ∀ i < numUsers, (rowEntries entries i).length = (rows i).length := by
    intro i hi
    rw [rowEntries_grouped rows numUsers entries hE i hi, List.length_map]
  have hvalid : ∀ i, i < numUsers →
      ∀ c, csrIndptr entries i ≤ c → c < csrIndptr entries (i + 1) →
      entries.getD c (0, 0) = (i, (rows i).getD (c - csrIndptr entries i) 0)
      ∧ c - csrIndptr entries i < (rows i).length := by
    intro i hi c hc1 hc2
    have hlt : c - csrIndptr entries i < (rows i).length := by
      rw [csrIndptr_succ] at hc2
      rw [← hrowlen i hi]
      omega
    have hc : c = csrIndptr entries i + (c - csrIndptr entries i) := by omega
    constructor
    · have hg := entries_getD_grouped rows numUsers entries hE i
        (c - csrIndptr entries i) hi hlt
      rw [← hc] at hg
      exact hg
    · exact hlt
  refine ⟨?_, ?_, ?_, ?_, ?_, ?_⟩
  · unfold pickTestTrain
    rw [List.length_map, ← List.countP_eq_length_filter,
      countP_eq_card_filter_range _ 0, List.length_range]
    have hfc : (Finset.range entries.length).filter
        (fun idx => decide ((List.range entries.length).getD idx 0
          ∉ pickedSet choice numUsers) = true)
        = (Finset.range entries.length).filter
            (fun idx => ¬ idx ∈ pickedSet choice numUsers) := by
      apply Finset.filter_congr
      intro idx hidx
      rw [getD_range entries.length idx 0 (Finset.mem_range.mp hidx)]
      simp
    rw [hfc]
    have hsplit := Finset.filter_card_add_filter_neg_card_eq_card
      (s := Finset.range entries.length) (fun idx => idx ∈ pickedSet choice numUsers)
    have hmem : (Finset.range entries.length).filter
        (fun idx => idx ∈ pickedSet choice numUsers) = pickedSet choice numUsers := by
      rw [Finset.filter_mem_eq_inter]
      rw [Finset.inter_eq_right]
      exact pickedSet_subset rows numUsers entries choice hE hv
    rw [hmem, pickedSet_card entries choice numUsers hv, Finset.card_range] at hsplit
    omega
  · intro i hi
    have hi2 := hv i hi
    obtain ⟨h1v, hlt1⟩ := hvalid i hi (choice i).1 hi2.1 hi2.2.1
    obtain ⟨h2v, hlt2⟩ := hvalid i hi (choice i).2 hi2.2.2.1 hi2.2.2.2.1
    have hval : pickTestValid entries choice i
        = (rows i).getD ((choice i).1 - csrIndptr entries i) 0 := by
      unfold pickTestValid
      rw [h1v]
    have htst : pickTestTest entries choice i
        = (rows i).getD ((choice i).2 - csrIndptr entries i) 0 := by
      unfold pickTestTest
      rw [h2v]
    refine ⟨?_, ?_, ?_⟩
    · rw [hval, List.getD_eq_getElem _ _ hlt1]
      exact List.getElem_mem hlt1
    · rw [htst, List.getD_eq_getElem _ _ hlt2]
      exact List.getElem_mem hlt2
    · rw [hval, htst, List.getD_eq_getElem _ _ hlt1, List.getD_eq_getElem _ _ hlt2]
      have hndi := hnd i hi
      rw [List.nodup_iff_injective_get] at hndi
      intro heq
      have hfin : (⟨(choice i).1 - csrIndptr entries i, hlt1⟩ : Fin (rows i).length)
          = ⟨(choice i).2 - csrIndptr entries i, hlt2⟩ := by
        apply hndi
        simpa [List.get_eq_getElem] using heq
      have := Fin.mk.injEq (((choice i)).1 - csrIndptr entries i) hlt1
        (((choice i)).2 - csrIndptr entries i) hlt2 ▸ hfin
      have hdiff : (choice i).1 - csrIndptr entries i
          = (choice i).2 - csrIndptr entries i := by
        exact congrArg Fin.val hfin
      have hne := hi2.2.2.2.2
      omega
  · intro e he
    unfold pickTestTrain at he
    rcases List.mem_map.mp he with ⟨p, hp, rfl⟩
    have hp2 : p < entries.length := by
      have := List.mem_filter.mp hp
      exact List.mem_range.mp this.1
    rw [List.getD_eq_getElem _ _ hp2]
    exact List.getElem_mem hp2
  · unfold pickTestTrain
    exact filter_range_map_getD_sublist (0, 0) entries _
  · intro p hp hnp
    unfold pickTestTrain
    refine List.mem_map.mpr ⟨p, ?_, rfl⟩
    refine List.mem_filter.mpr ⟨List.mem_range.mpr hp, ?_⟩
    simpa using hnp
  · have hNod := entries_nodup_grouped rows numUsers entries hE hnd
    rw [List.nodup_iff_injective_get] at hNod
    have htotal := csrIndptr_total rows numUsers entries hE
    have hkill : ∀ (i : ℕ), i < numUsers → ∀ c, csrIndptr entries i ≤ c →
        c < csrIndptr entries (i + 1) → c ∈ pickedSet choice numUsers →
        entries.getD c (0, 0) ∉ pickTestTrain entries choice numUsers := by
      intro i hi c hc1 hc2 hcp hmem
      unfold pickTestTrain at hmem
      rcases List.mem_map.mp hmem with ⟨p, hpf, hpe⟩
      have hpr := List.mem_filter.mp hpf
      have hplen : p < entries.length := List.mem_range.mp hpr.1
      have hpnp : p ∉ pickedSet choice numUsers := by simpa using hpr.2
      have hclen : c < entries.length := by
        have hle := csrIndptr_mono entries (i + 1) numUsers hi
        omega
      have hpc : p = c := by
        have hget : entries.get ⟨p, hplen⟩ = entries.get ⟨c, hclen⟩ := by
          rw [List.get_eq_getElem, List.get_eq_getElem,
            ← List.getD_eq_getElem entries (0, 0) hplen,
            ← List.getD_eq_getElem entries (0, 0) hclen]
          exact hpe
        exact congrArg Fin.val (hNod hget)
      rw [hpc] at hpnp
      exact hpnp hcp
    intro i hi
    have hi2 := hv i hi
    obtain ⟨h1v, hlt1⟩ := hvalid i hi (choice i).1 hi2.1 hi2.2.1
    obtain ⟨h2v, hlt2⟩ := hvalid i hi (choice i).2 hi2.2.2.1 hi2.2.2.2.1
    have hm0 : (choice i).1 ∈ pickedSet choice numUsers := by
      unfold pickedSet
      rw [Finset.mem_biUnion]
      exact ⟨i, Finset.mem_range.mpr hi, by simp⟩
    have hm1 : (choice i).2 ∈ pickedSet choice numUsers := by
      unfold pickedSet
      rw [Finset.mem_biUnion]
      exact ⟨i, Finset.mem_range.mpr hi, by simp⟩
    constructor
    · have hpair : (i, pickTestValid entries choice i)
          = entries.getD (choice i).1 (0, 0) := by
        unfold pickTestValid
        rw [h1v]
      rw [hpair]
      exact hkill i hi (choice i).1 hi2.1 hi2.2.1 hm0
    · have hpair : (i, pickTestTest entries choice i)
          = entries.getD (choice i).2 (0, 0) := by
        unfold pickTestTest
        rw [h2v]
      rw [hpair]
      exact hkill i hi (choice i).2 hi2.2.2.1 hi2.2.2.2.1 hm1

/-- The aligned COO entry list of the C7 witness. -/
def c7GoodEntries : List (ℕ × ℕ) := [(0, 2), (0, 3), (1, 5), (1, 7)]

/-- The per-user movie lists of the C7 witness. -/
def c7Rows : ℕ → List ℕ := fun i => if i = 0 then [2, 3] else if i = 1 then [5, 7] else []

/-- Witness for C7 (amended) at a concrete input. -/
theorem pick_test_spec_witness :
    (pickTestTrain c7GoodEntries c7Choice 2).length = c7GoodEntries.length - 2 * 2
    ∧ (pickTestValid c7GoodEntries c7Choice 0 ∈ c7Rows 0
        ∧ pickTestTest c7GoodEntries c7Choice 0 ∈ c7Rows 0
        ∧ pickTestValid c7GoodEntries c7Choice 0 ≠ pickTestTest c7GoodEntries c7Choice 0)
    ∧ List.Sublist (pickTestTrain c7GoodEntries c7Choice 2) c7GoodEntries
    ∧ (0, pickTestValid c7GoodEntries c7Choice 0) ∉ pickTestTrain c7GoodEntries c7Choice 2 := by
  have h := pick_test_spec c7Rows 2 c7GoodEntries c7Choice
    (by decide)
    (by unfold validChoice; decide)
    (by decide)
  exact ⟨h.1, h.2.1 0 (by decide), h.2.2.2.1, (h.2.2.2.2.2 0 (by decide)).1⟩

/-! ## C8: gen_neg_set from process_movielens.ipynb

`gen_neg_set(user_movie_spm, neg_sample_size)` loops per user:
`while len(movie_set) < n:` draw `np.random.choice(num_movies, n,
replace=False)` and, for each drawn movie, add it to the set when
`user_movie_spm[user, movie] == 0`, breaking out as soon as the set
reaches size `n`.  The matrix is embedded as its indicator
`spm : ℕ → ℕ → ℕ`, the random draws as an oracle stream
`σ : ℕ → List ℕ` (one length-`n` duplicate-free draw per while
iteration), and the unbounded `while` as fuel-indexed recursion:
`none` means the fuel ran out before the loop exited. -/

/-- The inner `for movie in movies` loop with its early `break`. -/
def addDraw (spm : ℕ → ℕ → ℕ) (u n : ℕ) : Finset ℕ → List ℕ → Finset ℕ
  | s, [] => s
  | s, m :: rest =>
    let s2 := if spm u m = 0 then insert m s else s
    if s2.card = n then s2 else addDraw spm u n s2 rest

/-- The per-user `while` loop, `t` counting the draws consumed. -/
def genNegUserAux (spm : ℕ → ℕ → ℕ) (u n : ℕ) (σ : ℕ → List ℕ) :
    ℕ → ℕ → Finset ℕ → Option (Finset ℕ)
  | 0, _, _ => none
  | fuel + 1, t, s =>
    if n ≤ s.card then some s
    else genNegUserAux spm u n σ fuel (t + 1) (addDraw spm u n s (σ t))

/-- One user's negative set, starting from the empty set. -/
def genNegUser (spm : ℕ → ℕ → ℕ) (u n : ℕ) (σ : ℕ → List ℕ) (fuel : ℕ) :
    Option (Finset ℕ) :=
  genNegUserAux spm u n σ fuel 0 ∅

/-- `gen_neg_set`: one row per user. -/
def genNegSet (spm : ℕ → ℕ → ℕ) (numUsers n : ℕ) (σ : ℕ → ℕ → List ℕ)
    (fuel : ℕ) : Option (List (Finset ℕ)) :=
  (List.range numUsers).mapM (fun u => genNegUser spm u n (σ u) fuel)

theorem addDraw_mem (spm : ℕ → ℕ → ℕ) (u n : ℕ) :
    ∀ (draw : List ℕ) (s : Finset ℕ) (m : ℕ),
      m ∈ addDraw spm u n s draw → m ∈ s ∨ (spm u m = 0 ∧ m ∈ draw) := by
  intro draw
  induction draw with
  | nil => intro s m hm; exact Or.inl hm
  | cons m2 rest ih =>
    intro s m hm
    rw [addDraw] at hm
    by_cases hz : spm u m2 = 0
    · simp only [if_pos hz] at hm
      by_cases hcard : (insert m2 s).card = n
      · rw [if_pos hcard] at hm
        rcases Finset.mem_insert.mp hm with rfl | hm2
        · exact Or.inr ⟨hz, by simp⟩
        · exact Or.inl hm2
      · rw [if_neg hcard] at hm
        rcases ih (insert m2 s) m hm with hm2 | ⟨hz2, hmr⟩
        · rcases Finset.mem_insert.mp hm2 with rfl | hm3
          · exact Or.inr ⟨hz, by simp⟩
          · exact Or.inl hm3
        · exact Or.inr ⟨hz2, by simp [hmr]⟩
    · simp only [if_neg hz] at hm
      by_cases hcard : s.card = n
      · rw [if_pos hcard] at hm
        exact Or.inl hm
      · rw [if_neg hcard] at hm
        rcases ih s m hm with hm2 | ⟨hz2, hmr⟩
        · exact Or.inl hm2
        · exact Or.inr ⟨hz2, by simp [hmr]⟩

theorem addDraw_card_le (spm : ℕ → ℕ → ℕ) (u n : ℕ) :
    ∀ (draw : List ℕ) (s : Finset ℕ), s.card < n →
      (addDraw spm u n s draw).card ≤ n := by
  intro draw
  induction draw with
  | nil => intro s hs; rw [addDraw]; omega
  | cons m rest ih =>
    intro s hs
    rw [addDraw]
    have hle : (if spm u m = 0 then insert m s else s).card ≤ s.card + 1 := by
      by_cases hz : spm u m = 0
      · simpa [hz] using Finset.card_insert_le m s
      · simp [hz]
    by_cases hcard : (if spm u m = 0 then insert m s else s).card = n
    · rw [if_pos hcard]
      omega
    · rw [if_neg hcard]
      exact ih _ (by omega)

theorem genNegUserAux_sound (spm : ℕ → ℕ → ℕ) (u n : ℕ) (σ : ℕ → List ℕ) :
    ∀ (fuel t : ℕ) (s : Finset ℕ), (∀ m ∈ s, spm u m = 0) → s.card ≤ n →
      ∀ out, genNegUserAux spm u n σ fuel t s = some out →
        (∀ m ∈ out, spm u m = 0) ∧ out.card = n := by
  intro fuel
  induction fuel with
  | zero => intro t s _ _ out h; exact Option.noConfusion h
  | succ fuel ih =>
    intro t s hz hcard out h
    rw [genNegUserAux] at h
    by_cases hle : n ≤ s.card
    · rw [if_pos hle] at h
      have : s = out := Option.some.inj h
      subst this
      exact ⟨hz, by omega⟩
    · rw [if_neg hle] at h
      refine ih (t + 1) (addDraw spm u n s (σ t)) ?_ ?_ out h
      · intro m hm
        rcases addDraw_mem spm u n (σ t) s m hm with hm2 | ⟨hz2, _⟩
        · exact hz m hm2
        · exact hz2
      · exact addDraw_card_le spm u n (σ t) s (by omega)

theorem addDraw_fresh (spm : ℕ → ℕ → ℕ) (u n : ℕ) :
    ∀ (draw : List ℕ) (s : Finset ℕ), draw.Nodup →
      (∀ m ∈ draw, spm u m = 0 ∧ m ∉ s) → s.card + draw.length = n →
      (addDraw spm u n s draw).card = n := by
  intro draw
  induction draw with
  | nil => intro s _ _ hsum; rw [addDraw]; simpa using hsum
  | cons m rest ih =>
    intro s hnd hfresh hsum
    have hm := hfresh m (by simp)
    rw [addDraw]
    simp only [if_pos hm.1]
    have hcard2 : (insert m s).card = s.card + 1 := Finset.card_insert_of_not_mem hm.2
    by_cases hcard : (insert m s).card = n
    · rw [if_pos hcard]
      exact hcard
    · rw [if_neg hcard]
      refine ih (insert m s) (List.nodup_cons.mp hnd).2 ?_ ?_
      · intro m2 hm2
        have hf2 := hfresh m2 (by simp [hm2])
        refine ⟨hf2.1, ?_⟩
        rw [Finset.mem_insert]
        rintro (rfl | hin)
        · exact (List.nodup_cons.mp hnd).1 hm2
        · exact hf2.2 hin
      · simp only [List.length_cons] at hsum
        omega

theorem genNegUser_terminates (spm : ℕ → ℕ → ℕ) (u n : ℕ) (draw : List ℕ)
    (hnd : draw.Nodup) (hlen : draw.length = n) (hz : ∀ m ∈ draw, spm u m = 0) :
    ∃ s, genNegUser spm u n (fun _ => draw) 2 = some s := by
  unfold genNegUser
  rw [genNegUserAux]
  by_cases h0 : n ≤ (∅ : Finset ℕ).card
  · rw [if_pos h0]
    exact ⟨∅, rfl⟩
  · rw [if_neg h0]
    have hfull : (addDraw spm u n ∅ draw).card = n := by
      refine addDraw_fresh spm u n draw ∅ hnd ?_ (by simpa using hlen)
      intro m hm
      exact ⟨hz m hm, by simp⟩
    rw [genNegUserAux, if_pos (by omega)]
    exact ⟨_, rfl⟩

theorem mapM_option_spec {α β : Type} (f : α → Option β) :
    ∀ (l : List α) (out : List β), l.mapM f = some out →
      out.length = l.length
      ∧ ∀ (i : ℕ) (d : α) (db : β), i < l.length →
          f (l.getD i d) = some (out.getD i db) := by
  intro l
  induction l with
  | nil =>
    intro out h
    have : out = [] := by
      rw [List.mapM_nil] at h
      exact (Option.some.inj h).symm
    subst this
    exact ⟨rfl, fun i d db hi => by simp at hi⟩
  | cons a l ih =>
    intro out h
    rw [List.mapM_cons] at h
    rcases Option.bind_eq_some.mp h with ⟨b, hb, h2⟩
    rcases Option.bind_eq_some.mp h2 with ⟨bs, hbs, h3⟩
    have hout : out = b :: bs := (Option.some.inj h3).symm
    subst hout
    obtain ⟨hlen, hidx⟩ := ih bs hbs
    refine ⟨by simp [hlen], ?_⟩
    intro i d db hi
    cases i with
    | zero => simpa using hb
    | succ i =>
      simp only [List.getD_cons_succ]
      exact hidx i d db (by simpa using hi)

/-- C8 (amended): whenever `gen_neg_set` returns (for any draw stream
and fuel), it returns one row per user, each an exactly-`n`-element set
of movies the user never interacted with (`spm u m = 0`), so the
internal assertions pass, and no returned pair can occur in any pair
list drawn from actual interactions (in particular the train map);
moreover for every user a single draw of `n` distinct non-interacted
movies (which exists when the user has at least `n` non-interacted
movies) makes the loop terminate.  Unconditional termination fails for
an adversarial draw stream, see the counterexample. -/
theorem gen_neg_set_spec (spm : ℕ → ℕ → ℕ) (numUsers n : ℕ)
    (σ : ℕ → ℕ → List ℕ) (fuel : ℕ) (out : List (Finset ℕ))
    (hout : genNegSet spm numUsers n σ fuel = some out) :
    out.length = numUsers
    ∧ (∀ u < numUsers, (out.getD u ∅).card = n ∧ ∀ m ∈ out.getD u ∅, spm u m = 0)
    ∧ (∀ u < numUsers, ∀ m ∈ out.getD u ∅,
        ∀ pairs : List (ℕ × ℕ), (∀ p ∈ pairs, spm p.1 p.2 ≠ 0) → (u, m) ∉ pairs)
    ∧ ∀ (u : ℕ) (draw : List ℕ), draw.Nodup → draw.length = n →
        (∀ m ∈ draw, spm u m = 0) →
        ∃ s, genNegUser spm u n (fun _ => draw) 2 = some s := by
  unfold genNegSet at hout
  obtain ⟨hlen, hidx⟩ := mapM_option_spec _ _ _ hout
  have hrow : ∀ u < numUsers,
      genNegUser spm u n (σ u) fuel = some (out.getD u ∅) := by
    intro u hu
    have := hidx u 0 ∅ (by simpa using hu)
    rwa [getD_range numUsers u 0 hu] at this
  have hsound : ∀ u < numUsers,
      (∀ m ∈ out.getD u ∅, spm u m = 0) ∧ (out.getD u ∅).card = n := by
    intro u hu
    exact genNegUserAux_sound spm u n (σ u) fuel 0 ∅ (by simp) (by simp)
      (out.getD u ∅) (hrow u hu)
  refine ⟨by simpa using hlen, ?_, ?_, ?_⟩
  · intro u hu
    exact ⟨(hsound u hu).2, (hsound u hu).1⟩
  · intro u hu m hm pairs hpairs hmem
    exact hpairs (u, m) hmem ((hsound u hu).1 m hm)
  · intro u draw hnd hlen2 hz
    exact genNegUser_terminates spm u n draw hnd hlen2 hz

/-- Witness for C8 (amended) at a concrete input. -/
theorem gen_neg_set_spec_witness :
    ([({0} : Finset ℕ)] : List (Finset ℕ)).length = 1
    ∧ (([({0} : Finset ℕ)] : List (Finset ℕ)).getD 0 ∅).card = 1 := by
  have h := gen_neg_set_spec (fun _ _ => 0) 1 1 (fun _ _ => [0]) 2 [{0}] (by decide)
  exact ⟨h.1, (h.2.1 0 (by decide)).1⟩

/-- The interaction matrix of the C8 counterexample: one user who
interacted with movie `0` only (movie `1` is free, so the user has at
least `n = 1` non-interacted movies). -/
def c8spm : ℕ → ℕ → ℕ := fun u m => if u = 0 ∧ m = 0 then 1 else 0

/-- C8 counterexample: the adversarial (but legal, duplicate-free,
in-range) draw stream that always returns `[0]` keeps the while loop of
`gen_neg_set` spinning forever — no amount of fuel makes it return —
even though the user has a non-interacted movie, so the claimed
unconditional termination fails. -/
theorem gen_neg_set_counterexample :
    (c8spm 0 1 = 0 ∧ ([0] : List ℕ).Nodup ∧ ([0] : List ℕ).length = 1)
    ∧ ¬ ∃ (fuel : ℕ) (out : List (Finset ℕ)),
        genNegSet c8spm 1 1 (fun _ _ => [0]) fuel = some out := by
  refine ⟨⟨by decide, by decide, by decide⟩, ?_⟩
  rintro ⟨fuel, out, hs⟩
  have key : ∀ (f t : ℕ), genNegUserAux c8spm 0 1 (fun _ => [0]) f t ∅ = none := by
    intro f
    induction f with
    | zero => intro t; rfl
    | succ f ih =>
      intro t
      have hadd : addDraw c8spm 0 1 ∅ [0] = ∅ := by
        rw [addDraw]
        norm_num [c8spm]
        rw [addDraw]
      rw [genNegUserAux, if_neg (by simp), hadd]
      exact ih (t + 1)
  have hnone : genNegSet c8spm 1 1 (fun _ _ => [0]) fuel = none := by
    unfold genNegSet genNegUser
    rw [show List.range 1 = [0] from rfl]
    simp only [List.mapM_cons, List.mapM_nil, key fuel 0]
    rfl
  rw [hnone] at hs
  exact Option.noConfusion hs

end DGLRec
